import Mathlib

/-!
Shallow embedding of two cores of the denkhaus/thunder repository:

* `Federation`: the pure schema-merging algorithm of `src/federation/schema.go`
  (`mergeTypeRefs`, `mergeInputFields`, `mergeFields`, `mergePossibleTypes`,
  `mergeEnumValues`, `mergeTypes`, `mergeSchemas`, `mergeSchemaSlice`).
* `Reactive`: the reactive executor of `src/reactive/rerunner.go`
  (`Rerunner.run`, `Stop`, `Cache`, `run`), modelled as a state machine.

Go errors are modelled by the inductive `MergeErr`, each constructor standing
for one distinct format string of the source; Go nil-pointer dereferences
(which panic) are modelled by the `nilDeref` constructor.
-/

namespace Thunder

instance {ε α : Type} [DecidableEq ε] [DecidableEq α] : DecidableEq (Except ε α) := fun a b =>
  match a, b with
  | .ok x, .ok y => decidable_of_iff (x = y) (by simp)
  | .ok _, .error _ => isFalse (by simp)
  | .error _, .ok _ => isFalse (by simp)
  | .error x, .error y => decidable_of_iff (x = y) (by simp)

namespace Federation

/-- `introspectionTypeRef` (schema.go): `{Kind, Name string; OfType *introspectionTypeRef}`.
A nil `OfType` pointer is `none`. -/
inductive ITypeRef where
  | mk (kind : String) (name : String) (ofType : Option ITypeRef)

def ITypeRef.decEq : (a b : ITypeRef) → Decidable (a = b)
  | .mk k1 n1 none, .mk k2 n2 none =>
    decidable_of_iff (k1 = k2 ∧ n1 = n2) (by simp)
  | .mk _ _ none, .mk _ _ (some _) => isFalse (by simp)
  | .mk _ _ (some _), .mk _ _ none => isFalse (by simp)
  | .mk k1 n1 (some t1), .mk k2 n2 (some t2) =>
    have : Decidable (t1 = t2) := ITypeRef.decEq t1 t2
    decidable_of_iff (k1 = k2 ∧ n1 = n2 ∧ t1 = t2) (by simp)

instance : DecidableEq ITypeRef := ITypeRef.decEq

def ITypeRef.kind : ITypeRef → String
  | .mk k _ _ => k

def ITypeRef.name : ITypeRef → String
  | .mk _ n _ => n

def ITypeRef.ofType : ITypeRef → Option ITypeRef
  | .mk _ _ t => t

/-- Structural size of a type reference, used as the termination measure
(= fuel) for `mergeTypeRefs`. -/
def ITypeRef.size : ITypeRef → Nat
  | .mk _ _ none => 1
  | .mk _ _ (some t) => 1 + t.size

/-- Whether the top-level kind of a reference is `NON_NULL`. -/
def ITypeRef.isNonNull (t : ITypeRef) : Bool := t.kind == "NON_NULL"

/-- Strip one top-level `NON_NULL` wrapper, if present. -/
def ITypeRef.stripNN (t : ITypeRef) : ITypeRef :=
  if t.kind = "NON_NULL" then t.ofType.getD t else t

/-- `introspectionInputField` (schema.go). The Go `Type` field is a pointer;
we model only the non-nil case (a nil type panics in Go). -/
structure IInputField where
  name : String
  type : ITypeRef
deriving DecidableEq

/-- `introspectionField` (schema.go). -/
structure IField where
  name : String
  type : ITypeRef
  args : List IInputField
deriving DecidableEq

/-- `introspectionEnumValue` (schema.go). -/
structure IEnumValue where
  name : String
deriving DecidableEq

/-- `introspectionType` (schema.go). -/
structure IType where
  name : String
  kind : String
  fields : List IField
  inputFields : List IInputField
  possibleTypes : List ITypeRef
  enumValues : List IEnumValue
deriving DecidableEq

/-- `introspectionQueryResult` (schema.go); the intermediate
`introspectionSchema` wrapper is collapsed, `types` is `.Schema.Types`. -/
structure IQueryResult where
  types : List IType
deriving DecidableEq

/-- `MergeMode` (schema.go): `Union` / `Intersection`. -/
inductive MergeMode where
  | union
  | intersection
deriving DecidableEq

/-- Errors of the merging pipeline. Each constructor corresponds to one
distinct error format string in schema.go; `nilDeref` models a Go nil-pointer
panic, and `outOfFuel` is the (unreachable) fuel-exhaustion case of
`mergeTypeRefsF`. -/
inductive MergeErr where
  | nilDeref
  | outOfFuel
  /-- `fmt.Errorf("kinds %s and %s differ", a.Name, b.Kind)` — note the source
  really prints `a.Name` and `b.Kind`. -/
  | kindsDiffer (x y : String)
  | typesMustBeIdentical
  | unknownTypeKind
  /-- `fmt.Errorf("new field %s is non-null: %v", name, p[0].Type)` -/
  | newFieldNonNull (name : String)
  /-- `fmt.Errorf("field %s has incompatible types ...: %v", name, ..., err)` -/
  | fieldIncompatibleTypes (name : String) (e : MergeErr)
  /-- `fmt.Errorf("field %s has incompatible arguments: %v", name, err)` -/
  | fieldIncompatibleArgs (name : String) (e : MergeErr)
  /-- `fmt.Errorf("conflicting kinds %s and %s", a.Kind, b.Kind)` -/
  | conflictingKinds (x y : String)
  | mergingInputFields (e : MergeErr)
  | mergingFields (e : MergeErr)
  | mergingPossibleTypes (e : MergeErr)
  | mergingEnumValues (e : MergeErr)
  /-- `fmt.Errorf("unknown kind %s", a.Kind)` (in `mergeTypes`) -/
  | unknownKind (k : String)
  /-- `fmt.Errorf("can't merge type %s: %v", name, err)` -/
  | cantMergeType (name : String) (e : MergeErr)
  /-- `errors.New("no schemas")` -/
  | noSchemas
deriving DecidableEq

/-- Wrap the result of the recursive `mergeTypeRefs` call in `NON_NULL` when
required (schema.go lines 124-140): input types are non-nil if either side is,
output types only if both sides are. -/
def nnWrap (isInput aNonNil bNonNil : Bool) :
    Except MergeErr ITypeRef → Except MergeErr ITypeRef
  | .error e => .error e
  | .ok merged =>
    if isInput || (aNonNil && bNonNil) then
      .ok (.mk "NON_NULL" "" (some merged))
    else
      .ok merged

/-- `mergeTypeRefs` (schema.go lines 111-168), with an explicit fuel argument
so that the definition is structurally recursive (and hence computable by the
kernel).  The fuel strictly exceeds the decrease of `a.size + b.size` at every
recursive call, so with fuel `a.size + b.size` the `outOfFuel` branch is
unreachable (see `mergeTypeRefsF_irrel`). -/
def mergeTypeRefsF : Nat → ITypeRef → ITypeRef → Bool → Except MergeErr ITypeRef
  | 0, _, _, _ => .error .outOfFuel
  | fuel + 1, a, b, isInput =>
    if a.kind = "NON_NULL" then
      match a.ofType with
      | none => .error .nilDeref
      | some a' =>
        if b.kind = "NON_NULL" then
          match b.ofType with
          | none => .error .nilDeref
          | some b' => nnWrap isInput true true (mergeTypeRefsF fuel a' b' isInput)
        else
          nnWrap isInput true false (mergeTypeRefsF fuel a' b isInput)
    else if b.kind = "NON_NULL" then
      match b.ofType with
      | none => .error .nilDeref
      | some b' => nnWrap isInput false true (mergeTypeRefsF fuel a b' isInput)
    else if a.kind ≠ b.kind then
      .error (.kindsDiffer a.name b.kind)
    else if a.kind = "SCALAR" ∨ a.kind = "ENUM" ∨ a.kind = "INPUT_OBJECT" ∨
            a.kind = "UNION" ∨ a.kind = "OBJECT" then
      if a.name ≠ b.name then .error .typesMustBeIdentical
      else .ok (.mk a.kind a.name none)
    else if a.kind = "LIST" then
      match a.ofType, b.ofType with
      | some ia, some ib =>
        match mergeTypeRefsF fuel ia ib isInput with
        | .error e => .error e
        | .ok inner => .ok (.mk "LIST" "" (some inner))
      | _, _ => .error .nilDeref
    else
      .error .unknownTypeKind

/-- `mergeTypeRefs(a, b, isInput)` (schema.go lines 111-168). -/
def mergeTypeRefs (a b : ITypeRef) (isInput : Bool) : Except MergeErr ITypeRef :=
  mergeTypeRefsF (a.size + b.size) a b isInput

/-- Lexicographic comparison of char lists; `strLe` below is the order that
`sort.Strings` uses (bytewise lexicographic, which agrees with per-character
lexicographic order on the names appearing here). -/
def charListLe : List Char → List Char → Bool
  | [], _ => true
  | _ :: _, [] => false
  | a :: as, b :: bs =>
    if a < b then true
    else if b < a then false
    else charListLe as bs

/-- Lexicographic order on strings (the order of Go's `sort.Strings`). -/
def strLe (a b : String) : Bool := charListLe a.data b.data

/-- Sorted list of the distinct names occurring in `l`: models collecting the
keys of the Go grouping map and `sort.Strings(names)`. -/
def sortedNames (l : List String) : List String :=
  List.insertionSort (fun a b => strLe a b = true) l.dedup

/-- The group that the Go merge loops build for a name `n`: the occurrences
from the first input followed by the occurrences from the second
(`types[a.Name] = append(types[a.Name], a)` over `a` then over `b`). -/
def groupFor {α : Type} (getName : α → String) (a b : List α) (n : String) : List α :=
  (a ++ b).filter (fun x => getName x == n)

/-- The common loop shape of the five mergers in schema.go: iterate over the
sorted names, run the per-name step on that name's group, abort on the first
error, and concatenate the per-name outputs in order. -/
def mergeGroups {α β : Type} (step : String → List α → Except MergeErr (List β))
    (groups : String → List α) : List String → Except MergeErr (List β)
  | [] => .ok []
  | n :: rest =>
    match step n (groups n) with
    | .error e => .error e
    | .ok hd =>
      match mergeGroups step groups rest with
      | .error e => .error e
      | .ok tl => .ok (hd ++ tl)

/-- Loop body of `mergeInputFields` (schema.go lines 187-206).  An empty group
is impossible for names drawn from the inputs; it would index `p[0]` out of
range in Go, hence `nilDeref`. -/
def inputFieldStep (mode : MergeMode) (n : String) :
    List IInputField → Except MergeErr (List IInputField)
  | [] => .error .nilDeref
  | [p0] =>
    if p0.type.kind = "NON_NULL" then .error (.newFieldNonNull n)
    else if mode = .union then .ok [p0]
    else .ok []
  | p0 :: p1 :: _ =>
    match mergeTypeRefs p0.type p1.type true with
    | .error e => .error (.fieldIncompatibleTypes n e)
    | .ok m => .ok [⟨n, m⟩]

/-- `mergeInputFields(a, b, mode)` (schema.go lines 172-209). -/
def mergeInputFields (a b : List IInputField) (mode : MergeMode) :
    Except MergeErr (List IInputField) :=
  mergeGroups (inputFieldStep mode) (groupFor (fun f => f.name) a b)
    (sortedNames ((a ++ b).map fun f => f.name))

/-- Loop body of `mergeFields` (schema.go lines 226-249). -/
def fieldStep (mode : MergeMode) (n : String) :
    List IField → Except MergeErr (List IField)
  | [] => .error .nilDeref
  | [p0] =>
    if mode = .union then .ok [p0] else .ok []
  | p0 :: p1 :: _ =>
    match mergeTypeRefs p0.type p1.type false with
    | .error e => .error (.fieldIncompatibleTypes n e)
    | .ok typ =>
      match mergeInputFields p0.args p1.args mode with
      | .error e => .error (.fieldIncompatibleArgs n e)
      | .ok args => .ok [⟨n, typ, args⟩]

/-- `mergeFields(a, b, mode)` (schema.go lines 211-252). -/
def mergeFields (a b : List IField) (mode : MergeMode) :
    Except MergeErr (List IField) :=
  mergeGroups (fieldStep mode) (groupFor (fun f => f.name) a b)
    (sortedNames ((a ++ b).map fun f => f.name))

/-- Loop body of `mergePossibleTypes` (schema.go lines 269-279): one occurrence
is kept in union mode only; on a collision the first occurrence is picked. -/
def possibleTypeStep (mode : MergeMode) (_ : String) :
    List ITypeRef → Except MergeErr (List ITypeRef)
  | [] => .error .nilDeref
  | [p0] =>
    if mode = .union then .ok [p0] else .ok []
  | p0 :: _ :: _ => .ok [p0]

/-- `mergePossibleTypes(a, b, mode)` (schema.go lines 254-282). -/
def mergePossibleTypes (a b : List ITypeRef) (mode : MergeMode) :
    Except MergeErr (List ITypeRef) :=
  mergeGroups (possibleTypeStep mode) (groupFor (fun t => t.name) a b)
    (sortedNames ((a ++ b).map fun t => t.name))

/-- Loop body of `mergeEnumValues` (schema.go lines 299-309). -/
def enumValueStep (mode : MergeMode) (_ : String) :
    List IEnumValue → Except MergeErr (List IEnumValue)
  | [] => .error .nilDeref
  | [p0] =>
    if mode = .union then .ok [p0] else .ok []
  | p0 :: _ :: _ => .ok [p0]

/-- `mergeEnumValues(a, b, mode)` (schema.go lines 284-312). -/
def mergeEnumValues (a b : List IEnumValue) (mode : MergeMode) :
    Except MergeErr (List IEnumValue) :=
  mergeGroups (enumValueStep mode) (groupFor (fun v => v.name) a b)
    (sortedNames ((a ++ b).map fun v => v.name))

/-- `mergeTypes(a, b, mode)` (schema.go lines 314-364): requires equal kinds,
dispatches to the collection merger for the kind, and fills the other
collections with empty lists. -/
def mergeTypes (a b : IType) (mode : MergeMode) : Except MergeErr IType :=
  if a.kind ≠ b.kind then .error (.conflictingKinds a.kind b.kind)
  else if a.kind = "INPUT_OBJECT" then
    match mergeInputFields a.inputFields b.inputFields mode with
    | .error e => .error (.mergingInputFields e)
    | .ok l => .ok ⟨a.name, a.kind, [], l, [], []⟩
  else if a.kind = "OBJECT" then
    match mergeFields a.fields b.fields mode with
    | .error e => .error (.mergingFields e)
    | .ok l => .ok ⟨a.name, a.kind, l, [], [], []⟩
  else if a.kind = "UNION" then
    match mergePossibleTypes a.possibleTypes b.possibleTypes mode with
    | .error e => .error (.mergingPossibleTypes e)
    | .ok l => .ok ⟨a.name, a.kind, [], [], l, []⟩
  else if a.kind = "ENUM" then
    match mergeEnumValues a.enumValues b.enumValues mode with
    | .error e => .error (.mergingEnumValues e)
    | .ok l => .ok ⟨a.name, a.kind, [], [], [], l⟩
  else if a.kind = "SCALAR" then
    .ok ⟨a.name, a.kind, [], [], [], []⟩
  else
    .error (.unknownKind a.kind)

/-- Loop body of `mergeSchemas` (schema.go lines 381-395). -/
def typeStep (mode : MergeMode) (n : String) :
    List IType → Except MergeErr (List IType)
  | [] => .error .nilDeref
  | [p0] =>
    if mode = .union then .ok [p0] else .ok []
  | p0 :: p1 :: _ =>
    match mergeTypes p0 p1 mode with
    | .error e => .error (.cantMergeType n e)
    | .ok m => .ok [m]

/-- `mergeSchemas(a, b, mode)` (schema.go lines 366-402). -/
def mergeSchemas (a b : IQueryResult) (mode : MergeMode) :
    Except MergeErr IQueryResult :=
  match mergeGroups (typeStep mode) (groupFor (fun t => t.name) a.types b.types)
      (sortedNames ((a.types ++ b.types).map fun t => t.name)) with
  | .error e => .error e
  | .ok l => .ok ⟨l⟩

/-- The `for _, schema := range schemas[1:]` loop of `mergeSchemaSlice`
(schema.go lines 408-415). -/
def mergeSchemaSliceGo (mode : MergeMode) :
    IQueryResult → List IQueryResult → Except MergeErr IQueryResult
  | merged, [] => .ok merged
  | merged, s :: rest =>
    match mergeSchemas merged s mode with
    | .error e => .error e
    | .ok m => mergeSchemaSliceGo mode m rest

/-- `mergeSchemaSlice(schemas, mode)` (schema.go lines 404-417). -/
def mergeSchemaSlice (schemas : List IQueryResult) (mode : MergeMode) :
    Except MergeErr IQueryResult :=
  match schemas with
  | [] => .error .noSchemas
  | s :: rest => mergeSchemaSliceGo mode s rest

/-- Sample reference: the scalar `Int`. -/
def intRef : ITypeRef := .mk "SCALAR" "Int" none

/-- Sample reference: the scalar `String`. -/
def strRef : ITypeRef := .mk "SCALAR" "String" none

/-- Sample reference: `Int!`. -/
def nnIntRef : ITypeRef := .mk "NON_NULL" "" (some intRef)

/-- Sample type: a scalar named `X`. -/
def xScalar : IType := ⟨"X", "SCALAR", [], [], [], []⟩

/-- Sample schema with a duplicated top-level type name. -/
def dupXSchema : IQueryResult := ⟨[xScalar, xScalar]⟩

/-- The empty schema. -/
def emptySchema : IQueryResult := ⟨[]⟩

/-- Sample schema: `Query { x: Int }`. -/
def sampleObjSchema : IQueryResult :=
  ⟨[⟨"Q", "OBJECT", [⟨"x", intRef, []⟩], [], [], []⟩]⟩

/-- Sample schema: `Query { y: String }`. -/
def sampleObjSchemaB : IQueryResult :=
  ⟨[⟨"Q", "OBJECT", [⟨"y", strRef, []⟩], [], [], []⟩]⟩

/-- Union merge of `sampleObjSchema` and `sampleObjSchemaB`. -/
def sampleUnionResult : IQueryResult :=
  ⟨[⟨"Q", "OBJECT", [⟨"x", intRef, []⟩, ⟨"y", strRef, []⟩], [], [], []⟩]⟩

/-- Sample schema with a duplicated OBJECT type name `X` (fields f and g). -/
def dupFieldSchemaA : IQueryResult :=
  ⟨[⟨"X", "OBJECT", [⟨"f", intRef, []⟩], [], [], []⟩,
    ⟨"X", "OBJECT", [⟨"g", intRef, []⟩], [], [], []⟩]⟩

/-- Sample schema with a single OBJECT type `X` (field h). -/
def oneFieldSchemaB : IQueryResult :=
  ⟨[⟨"X", "OBJECT", [⟨"h", intRef, []⟩], [], [], []⟩]⟩

/-- Union merge of `dupFieldSchemaA` and `oneFieldSchemaB`: only the first two
occurrences of `X` are merged, `h` is dropped. -/
def unionDupResult : IQueryResult :=
  ⟨[⟨"X", "OBJECT", [⟨"f", intRef, []⟩, ⟨"g", intRef, []⟩], [], [], []⟩]⟩

/-- Sample schema with a duplicated field name `f` (`f: Int!` and `f: Int`)
inside type `X`. -/
def dupNNFieldSchema : IQueryResult :=
  ⟨[⟨"X", "OBJECT", [⟨"f", nnIntRef, []⟩, ⟨"f", intRef, []⟩], [], [], []⟩]⟩

/-- Sample schema with type `X { f: Int! }`. -/
def nnFieldSchema : IQueryResult :=
  ⟨[⟨"X", "OBJECT", [⟨"f", nnIntRef, []⟩], [], [], []⟩]⟩

/-- Well-formedness of the input-field lists: distinct field names. -/
def inputFieldsWF (l : List IInputField) : Prop :=
  (l.map fun f => f.name).Nodup

/-- Well-formedness of a field list: distinct field names, and within each
field distinct argument names. -/
def fieldsWF (l : List IField) : Prop :=
  (l.map fun f => f.name).Nodup ∧ ∀ f ∈ l, inputFieldsWF f.args

/-- Well-formedness of one introspection type: all four collections keyed by
distinct names. -/
def typeWF (t : IType) : Prop :=
  fieldsWF t.fields ∧ inputFieldsWF t.inputFields ∧
    (t.possibleTypes.map fun p => p.name).Nodup ∧
    (t.enumValues.map fun v => v.name).Nodup

/-- Well-formedness of a schema: distinct top-level type names and well-formed
types. -/
def schemaWF (s : IQueryResult) : Prop :=
  (s.types.map fun t => t.name).Nodup ∧ ∀ t ∈ s.types, typeWF t

instance : DecidablePred inputFieldsWF := fun _ => by
  unfold inputFieldsWF; infer_instance

instance : DecidablePred fieldsWF := fun _ => by
  unfold fieldsWF; infer_instance

instance : DecidablePred typeWF := fun _ => by
  unfold typeWF; infer_instance

instance : DecidablePred schemaWF := fun _ => by
  unfold schemaWF; infer_instance

/-- The shape agreement between the two directions of a schema merge: names,
kinds, fields, input fields and enum values agree exactly; possible types
agree by name (their first occurrence is picked without further checks, so
the picked references may differ in other components). -/
def typeSimilar (t u : IType) : Prop :=
  t.name = u.name ∧ t.kind = u.kind ∧ t.fields = u.fields ∧
    t.inputFields = u.inputFields ∧ t.enumValues = u.enumValues ∧
    (t.possibleTypes.map fun p => p.name) = (u.possibleTypes.map fun p => p.name)

end Federation

namespace Reactive

/-- Two's-complement wrap-around of Go `int64` arithmetic (`time.Duration` is
an `int64` of nanoseconds, and Go integer overflow wraps). -/
def wrap64 (x : Int) : Int := (x + 2 ^ 63) % 2 ^ 64 - 2 ^ 63

/-- `time.Minute` in nanoseconds. -/
def timeMinute : Int := 60000000000

/-- The retry-delay update of `Rerunner.run` (rerunner.go lines 265-270):
`r.retryDelay = r.retryDelay * 2`, then capped at `time.Minute`. -/
def doubledRetryDelay (d : Int) : Int :=
  let d2 := wrap64 (d * 2)
  if d2 > timeMinute then timeMinute else d2

/-- Outcome of one invocation of the user computation `f` inside
`run(ctx, r.f)`:  success (with a flag telling whether the fresh computation's
node was already invalidated when `handleInvalidate` ran), the retry sentinel,
or any other (fatal) error. -/
inductive RunOutcome where
  | success (alreadyInvalidated : Bool)
  | retry
  | fatal
deriving DecidableEq

/-- State of one `Rerunner` (rerunner.go lines 201-215) together with the
bookkeeping needed to express lifecycle claims.  Computations are identified
by the order of their creation (`nextId` counts the computations ever created
by `run`); `released` lists the ids whose node has been released;
`handlerArmed` says whether the invalidation handler registered by
`computation.node.handleInvalidate(r.run)` on the current computation has not
fired yet; `pending` counts scheduled-but-not-yet-executed `go r.run()` calls;
`fatalStopped` records that some run ended in a non-sentinel error. -/
structure RState where
  stopped : Bool
  fatalStopped : Bool
  retryDelay : Int
  minRerunInterval : Int
  current : Option Nat
  handlerArmed : Bool
  pending : Nat
  released : List Nat
  nextId : Nat
deriving DecidableEq

/-- The body of `Rerunner.run` after the timer wait (rerunner.go lines
249-292), as a function of the outcome of `f`.  In every case `run(ctx, r.f)`
creates a fresh computation (`nextId`); on any error that fresh computation's
node is released by `run` itself (`go c.node.release()`, line 159).  On the
retry sentinel the delay is doubled and capped and another run is scheduled;
on a fatal error the method just returns; on success the old computation is
released, the new one is stored, the delay resets to `minRerunInterval`, and
`handleInvalidate(r.run)` either arms the handler or (if the new node was
already invalidated) immediately schedules the next run. -/
def runBody (s : RState) (o : RunOutcome) : RState :=
  if s.stopped then s
  else
    match o with
    | .retry =>
      { s with
        released := s.nextId :: s.released
        nextId := s.nextId + 1
        retryDelay := doubledRetryDelay s.retryDelay
        pending := s.pending + 1 }
    | .fatal =>
      { s with
        released := s.nextId :: s.released
        nextId := s.nextId + 1
        fatalStopped := true }
    | .success inv =>
      { s with
        released :=
          match s.current with
          | some c => c :: s.released
          | none => s.released
        current := some s.nextId
        nextId := s.nextId + 1
        retryDelay := s.minRerunInterval
        handlerArmed := !inv
        pending := s.pending + (if inv then 1 else 0) }

/-- Modelled from the spec: the dependency-node implementation (node.go) is
not under src/, only its call sites in rerunner.go are.  Per spec §4.A,
invalidation handlers are one-shot — invalidating the current computation's
node fires the registered `r.run` handler at most once, and invalidation is
idempotent afterwards.  So invalidating the current computation's node
schedules one run if the handler is still armed, and does nothing
otherwise. -/
def invalidateCurrentOp (s : RState) : RState :=
  if s.handlerArmed then
    { s with handlerArmed := false, pending := s.pending + 1 }
  else s

/-- `Rerunner.Stop` (rerunner.go lines 294-305): set `stop`, release the
current computation, drop it.  The invalidation handler registered on the
released node is not unregistered. -/
def stopOp (s : RState) : RState :=
  { s with
    stopped := true
    released :=
      match s.current with
      | some c => c :: s.released
      | none => s.released
    current := none }

/-- Interleaving semantics of the executor: a scheduled run executes with some
outcome of `f`, the current computation's node is invalidated, or `Stop` is
called. -/
inductive RStep : RState → RState → Prop
  | run (s : RState) (o : RunOutcome) (h : 0 < s.pending) :
      RStep s (runBody { s with pending := s.pending - 1 } o)
  | invalidate (s : RState) : RStep s (invalidateCurrentOp s)
  | stop (s : RState) : RStep s (stopOp s)

/-- `NewRerunner` (rerunner.go lines 218-235): fresh cache, `retryDelay`
seeded with `minRerunInterval`, and one run scheduled (`go r.run()`). -/
def RInit (minInterval : Int) : RState :=
  { stopped := false
    fatalStopped := false
    retryDelay := minInterval
    minRerunInterval := minInterval
    current := none
    handlerArmed := false
    pending := 1
    released := []
    nextId := 0 }

/-- States reachable by the executor started with `NewRerunner(ctx, f, m)`. -/
def Reachable (m : Int) (s : RState) : Prop :=
  Relation.ReflTransGen RStep (RInit m) s

/-- Executor invariant: at most one run trigger is outstanding (a scheduled
run or an armed invalidation handler); after a fatal error neither exists;
released ids and the current id are consistent with the id counter. -/
def RInv (s : RState) : Prop :=
  s.pending + (if s.handlerArmed then 1 else 0) ≤ 1 ∧
    (s.fatalStopped → s.pending = 0 ∧ s.handlerArmed = false) ∧
    (∀ c ∈ s.released, c < s.nextId) ∧
    (∀ c, s.current = some c → c < s.nextId ∧ c ∉ s.released)

/-- A run of the executor: the first scheduled run succeeds (computation 0 is
installed and its invalidation handler armed). -/
def c1TraceS1 : RState := runBody { RInit 0 with pending := 0 } (.success false)

/-- The installed computation's node is invalidated: the one-shot handler
fires and schedules a re-run. -/
def c1TraceS2 : RState := invalidateCurrentOp c1TraceS1

/-- The scheduled re-run ends with a fatal (non-sentinel) error. -/
def c1TraceS3 : RState := runBody { c1TraceS2 with pending := 0 } .fatal

/-- State of the computation cache as seen by `Cache` (rerunner.go lines
168-193): the memoized values by key, plus counters witnessing the side
effects on the dependency graph — `edges` counts `child.node.addOut(...)`
calls into the current computation's node, `releasedChildren` counts the
child computations released by `run` on error (line 159). -/
structure CacheState (K V : Type) where
  entries : K → Option V
  edges : Nat
  releasedChildren : Nat

/-- `Cache(ctx, key, f)` (rerunner.go lines 168-193) under the keyed lock,
with the result of `f` passed in as a value (`fres`).  Outside a rerun
context `f` is invoked directly.  Inside: a cache hit adds a dependency edge
and returns the cached value without running `f`; on a miss, `run(ctx, f)`
is invoked — if `f` fails the child computation is released and the error is
returned without touching the cache, otherwise the value is stored
(`cache.set` inserts only if still absent) and an edge is added. -/
def CacheOp {K V : Type} [DecidableEq K] (hasRerunner : Bool)
    (s : CacheState K V) (key : K) (fres : Except String V) :
    Except String V × CacheState K V :=
  if hasRerunner = false then (fres, s)
  else
    match s.entries key with
    | some v => (.ok v, { s with edges := s.edges + 1 })
    | none =>
      match fres with
      | .error e =>
        (.error e, { s with releasedChildren := s.releasedChildren + 1 })
      | .ok v =>
        (.ok v,
          { entries := fun k => if k = key then some v else s.entries k
            edges := s.edges + 1
            releasedChildren := s.releasedChildren })

/-- The empty cache over natural-number keys and values. -/
def emptyCache : CacheState Nat Nat := ⟨fun _ => none, 0, 0⟩

end Reactive

namespace Federation

theorem charListLe_total : ∀ as bs, charListLe as bs = true ∨ charListLe bs as = true
  | [], _ => .inl rfl
  | _ :: _, [] => .inr rfl
  | a :: as, b :: bs => by
    rcases lt_trichotomy a b with h | h | h
    · exact .inl (by simp [charListLe, h])
    · subst h
      rcases charListLe_total as bs with ih | ih
      · exact .inl (by simp [charListLe, ih])
      · exact .inr (by simp [charListLe, ih])
    · exact .inr (by simp [charListLe, h])

theorem charListLe_trans :
    ∀ {as bs cs}, charListLe as bs = true → charListLe bs cs = true →
      charListLe as cs = true
  | [], _, _, _, _ => rfl
  | _ :: _, [], _, h, _ => by simp [charListLe] at h
  | _ :: _, _ :: _, [], _, h => by simp [charListLe] at h
  | a :: as, b :: bs, c :: cs, h1, h2 => by
    simp only [charListLe] at h1 h2 ⊢
    rcases lt_trichotomy a b with hab | hab | hab
    · rcases lt_trichotomy b c with hbc | hbc | hbc
      · simp [lt_trans hab hbc]
      · subst hbc; simp [hab]
      · simp [asymm hbc, hbc] at h2
    · subst hab
      simp only [lt_irrefl, if_neg] at h1
      rcases lt_trichotomy a c with hac | hac | hac
      · simp [hac]
      · subst hac
        simp only [lt_irrefl, if_neg] at h2 ⊢
        simp only [if_false] at h1 h2 ⊢
        exact charListLe_trans h1 h2
      · simp [asymm hac, hac] at h2
    · simp [asymm hab, hab] at h1

theorem charListLe_antisymm :
    ∀ {as bs}, charListLe as bs = true → charListLe bs as = true → as = bs
  | [], [], _, _ => rfl
  | [], _ :: _, _, h => by simp [charListLe] at h
  | _ :: _, [], h, _ => by simp [charListLe] at h
  | a :: as, b :: bs, h1, h2 => by
    simp only [charListLe] at h1 h2
    rcases lt_trichotomy a b with hab | hab | hab
    · simp [asymm hab, hab] at h2
    · subst hab
      simp only [lt_irrefl, if_neg, if_false] at h1 h2
      rw [charListLe_antisymm h1 h2]
    · simp [asymm hab, hab] at h1

theorem strLe_total (a b : String) : strLe a b = true ∨ strLe b a = true :=
  charListLe_total a.data b.data

theorem strLe_trans {a b c : String} (h1 : strLe a b = true)
    (h2 : strLe b c = true) : strLe a c = true :=
  charListLe_trans h1 h2

theorem strLe_antisymm {a b : String} (h1 : strLe a b = true)
    (h2 : strLe b a = true) : a = b := by
  cases a with
  | mk da =>
    cases b with
    | mk db => exact congrArg String.mk (charListLe_antisymm h1 h2)

instance : IsTotal String (fun a b => strLe a b = true) := ⟨strLe_total⟩

instance : IsTrans String (fun a b => strLe a b = true) := ⟨fun _ _ _ => strLe_trans⟩

instance : IsAntisymm String (fun a b => strLe a b = true) := ⟨fun _ _ => strLe_antisymm⟩

theorem mem_sortedNames {x : String} {l : List String} :
    x ∈ sortedNames l ↔ x ∈ l := by
  unfold sortedNames
  rw [(List.perm_insertionSort _ _).mem_iff, List.mem_dedup]

theorem sortedNames_nodup (l : List String) : (sortedNames l).Nodup :=
  (List.perm_insertionSort _ _).nodup_iff.mpr l.nodup_dedup

theorem sortedNames_sorted (l : List String) :
    List.Sorted (fun a b => strLe a b = true) (sortedNames l) :=
  List.sorted_insertionSort _ _

theorem sortedNames_append_comm (l₁ l₂ : List String) :
    sortedNames (l₁ ++ l₂) = sortedNames (l₂ ++ l₁) := by
  refine List.eq_of_perm_of_sorted ?_ (sortedNames_sorted _) (sortedNames_sorted _)
  rw [List.perm_ext_iff_of_nodup (sortedNames_nodup _) (sortedNames_nodup _)]
  intro a
  simp only [mem_sortedNames, List.mem_append]
  exact or_comm

theorem groupFor_eq_append {α : Type} (g : α → String) (a b : List α) (n : String) :
    groupFor g a b n =
      a.filter (fun x => g x == n) ++ b.filter (fun x => g x == n) := by
  simp [groupFor, List.filter_append]

theorem groupFor_swap {α : Type} (g : α → String) (a b : List α) (n : String) :
    groupFor g b a n =
      b.filter (fun x => g x == n) ++ a.filter (fun x => g x == n) :=
  groupFor_eq_append g b a n

theorem mem_groupFor {α : Type} {g : α → String} {a b : List α} {n : String} {x : α} :
    x ∈ groupFor g a b n ↔ (x ∈ a ∨ x ∈ b) ∧ g x = n := by
  simp [groupFor, List.mem_filter, List.mem_append, or_and_right]

theorem groupFor_ne_nil {α : Type} (g : α → String) {a b : List α} {x : α}
    (h : x ∈ a ∨ x ∈ b) : groupFor g a b (g x) ≠ [] := by
  intro he
  have hx : x ∈ groupFor g a b (g x) := mem_groupFor.mpr ⟨h, rfl⟩
  rw [he] at hx
  cases hx

theorem filter_name_length_le_one {α : Type} {g : α → String} {l : List α}
    (h : (l.map g).Nodup) (n : String) :
    (l.filter (fun x => g x == n)).length ≤ 1 := by
  induction l with
  | nil => simp
  | cons x xs ih =>
    simp only [List.map_cons, List.nodup_cons] at h
    by_cases hx : g x = n
    · have hnil : xs.filter (fun y => g y == n) = [] := by
        rw [List.filter_eq_nil_iff]
        intro y hy hgy
        rw [beq_iff_eq] at hgy
        exact h.1 (List.mem_map.mpr ⟨y, hy, by rw [hgy, hx]⟩)
      simp [List.filter_cons, hx, hnil]
    · simp only [List.filter_cons, beq_iff_eq, if_neg hx]
      exact ih h.2

theorem ITypeRef.size_pos (t : ITypeRef) : 0 < t.size := by
  cases t with
  | mk k n o => cases o <;> simp [ITypeRef.size]

theorem ITypeRef.ofType_size_lt {t u : ITypeRef} (h : t.ofType = some u) :
    u.size < t.size := by
  cases t with
  | mk k n o =>
    cases o with
    | none => simp [ITypeRef.ofType] at h
    | some v =>
      simp only [ITypeRef.ofType, Option.some.injEq] at h
      subst h
      simp [ITypeRef.size]

theorem isNonNull_false_of_kind_ne {t : ITypeRef} (h : ¬t.kind = "NON_NULL") :
    t.isNonNull = false := by
  simp [ITypeRef.isNonNull, h]

theorem kind_ne_of_isNonNull_false {t : ITypeRef} (h : t.isNonNull = false) :
    ¬t.kind = "NON_NULL" := by
  simpa [ITypeRef.isNonNull] using h

theorem stripNN_of_not_nonNull {t : ITypeRef} (h : t.isNonNull = false) :
    t.stripNN = t := by
  simp [ITypeRef.stripNN, kind_ne_of_isNonNull_false h]

theorem stripNN_of_ofType {t u : ITypeRef} (hk : t.kind = "NON_NULL")
    (h : t.ofType = some u) : t.stripNN = u := by
  simp [ITypeRef.stripNN, hk, h]

theorem kind_mk (k n : String) (o : Option ITypeRef) :
    (ITypeRef.mk k n o).kind = k := rfl

theorem isNonNull_mk (k n : String) (o : Option ITypeRef) :
    (ITypeRef.mk k n o).isNonNull = (k == "NON_NULL") := rfl

theorem mergeTypeRefsF_irrel : ∀ (n : Nat) {f1 f2 : Nat} (a b : ITypeRef) (i : Bool),
    a.size + b.size ≤ n → n ≤ f1 → n ≤ f2 →
    mergeTypeRefsF f1 a b i = mergeTypeRefsF f2 a b i := by
  intro n
  induction n with
  | zero =>
    intro f1 f2 a b i hs _ _
    have := a.size_pos
    omega
  | succ m ih =>
    intro f1 f2 a b i hs h1 h2
    have hpa := a.size_pos
    have hpb := b.size_pos
    obtain ⟨g1, rfl⟩ : ∃ g, f1 = g + 1 := ⟨f1 - 1, by omega⟩
    obtain ⟨g2, rfl⟩ : ∃ g, f2 = g + 1 := ⟨f2 - 1, by omega⟩
    simp only [mergeTypeRefsF]
    by_cases hA : a.kind = "NON_NULL"
    · simp only [if_pos hA]
      cases hoa : a.ofType with
      | none => rfl
      | some a' =>
        dsimp only
        have hsa := ITypeRef.ofType_size_lt hoa
        by_cases hB : b.kind = "NON_NULL"
        · simp only [if_pos hB]
          cases hob : b.ofType with
          | none => rfl
          | some b' =>
            dsimp only
            have hsb := ITypeRef.ofType_size_lt hob
            rw [@ih g1 g2 a' b' i (by omega) (by omega) (by omega)]
        · simp only [if_neg hB]
          rw [@ih g1 g2 a' b i (by omega) (by omega) (by omega)]
    · simp only [if_neg hA]
      by_cases hB : b.kind = "NON_NULL"
      · simp only [if_pos hB]
        cases hob : b.ofType with
        | none => rfl
        | some b' =>
          dsimp only
          have hsb := ITypeRef.ofType_size_lt hob
          rw [@ih g1 g2 a b' i (by omega) (by omega) (by omega)]
      · simp only [if_neg hB]
        by_cases hk : a.kind ≠ b.kind
        · simp [if_pos hk]
        · simp only [if_neg hk]
          by_cases hbase : a.kind = "SCALAR" ∨ a.kind = "ENUM" ∨
              a.kind = "INPUT_OBJECT" ∨ a.kind = "UNION" ∨ a.kind = "OBJECT"
          · simp [if_pos hbase]
          · simp only [if_neg hbase]
            by_cases hlist : a.kind = "LIST"
            · simp only [if_pos hlist]
              cases hoa : a.ofType with
              | none => rfl
              | some ia =>
                cases hob : b.ofType with
                | none => rfl
                | some ib =>
                  dsimp only
                  have hsa := ITypeRef.ofType_size_lt hoa
                  have hsb := ITypeRef.ofType_size_lt hob
                  rw [@ih g1 g2 ia ib i (by omega) (by omega) (by omega)]
            · simp [if_neg hlist]

theorem mergeTypeRefs_eq_F {a b : ITypeRef} {i : Bool} {f : Nat}
    (hf : a.size + b.size ≤ f) :
    mergeTypeRefs a b i = mergeTypeRefsF f a b i :=
  mergeTypeRefsF_irrel (a.size + b.size) a b i le_rfl le_rfl hf

theorem mergeTypeRefsF_nonNull : ∀ (n : Nat) {f : Nat} (a b : ITypeRef) (i : Bool)
    (r : ITypeRef), a.size + b.size ≤ n → n ≤ f →
    mergeTypeRefsF f a b i = .ok r →
    r.isNonNull = (if i then a.isNonNull || b.isNonNull
                   else a.isNonNull && b.isNonNull) := by
  intro n
  induction n with
  | zero =>
    intro f a b i r hs _ _
    have := a.size_pos
    omega
  | succ m ih =>
    intro f a b i r hs hf h
    have hpa := a.size_pos
    have hpb := b.size_pos
    obtain ⟨g, rfl⟩ : ∃ g, f = g + 1 := ⟨f - 1, by omega⟩
    simp only [mergeTypeRefsF] at h
    by_cases hA : a.kind = "NON_NULL"
    · simp only [if_pos hA] at h
      have hannBool : a.isNonNull = true := by simp [ITypeRef.isNonNull, hA]
      cases hoa : a.ofType with
      | none => rw [hoa] at h; cases h
      | some a' =>
        rw [hoa] at h
        dsimp only at h
        have hsa := ITypeRef.ofType_size_lt hoa
        by_cases hB : b.kind = "NON_NULL"
        · simp only [if_pos hB] at h
          have hbnnBool : b.isNonNull = true := by simp [ITypeRef.isNonNull, hB]
          cases hob : b.ofType with
          | none => rw [hob] at h; cases h
          | some b' =>
            rw [hob] at h
            dsimp only at h
            cases hm : mergeTypeRefsF g a' b' i with
            | error e => rw [hm] at h; cases h
            | ok mres =>
              rw [hm] at h
              simp only [nnWrap, Bool.and_true, Bool.or_true] at h
              rw [if_pos (by cases i <;> simp)] at h
              cases h
              rw [hannBool, hbnnBool]
              cases i <;> simp [isNonNull_mk]
        · simp only [if_neg hB] at h
          have hbnnBool : b.isNonNull = false := isNonNull_false_of_kind_ne hB
          cases hm : mergeTypeRefsF g a' b i with
          | error e => rw [hm] at h; cases h
          | ok mres =>
            rw [hm] at h
            simp only [nnWrap, Bool.and_false, Bool.or_false] at h
            cases i with
            | true =>
              rw [if_pos (by simp)] at h
              cases h
              rw [hannBool]
              simp [isNonNull_mk]
            | false =>
              rw [if_neg (by simp)] at h
              cases h
              have hmn := ih a' b false r (by omega) (by omega) hm
              rw [hmn]
              simp [hbnnBool]
    · simp only [if_neg hA] at h
      have hannBool : a.isNonNull = false := isNonNull_false_of_kind_ne hA
      by_cases hB : b.kind = "NON_NULL"
      · simp only [if_pos hB] at h
        have hbnnBool : b.isNonNull = true := by simp [ITypeRef.isNonNull, hB]
        cases hob : b.ofType with
        | none => rw [hob] at h; cases h
        | some b' =>
          rw [hob] at h
          dsimp only at h
          have hsb := ITypeRef.ofType_size_lt hob
          cases hm : mergeTypeRefsF g a b' i with
          | error e => rw [hm] at h; cases h
          | ok mres =>
            rw [hm] at h
            simp only [nnWrap, Bool.false_and, Bool.false_or] at h
            cases i with
            | true =>
              rw [if_pos (by simp)] at h
              cases h
              rw [hbnnBool]
              simp [isNonNull_mk]
            | false =>
              rw [if_neg (by simp)] at h
              cases h
              have hmn := ih a b' false r (by omega) (by omega) hm
              rw [hmn]
              simp [hannBool]
      · have hbnnBool : b.isNonNull = false := isNonNull_false_of_kind_ne hB
        simp only [if_neg hB] at h
        rw [hannBool, hbnnBool]
        by_cases hk : a.kind ≠ b.kind
        · rw [if_pos hk] at h; cases h
        · rw [if_neg hk] at h
          by_cases hbase : a.kind = "SCALAR" ∨ a.kind = "ENUM" ∨
              a.kind = "INPUT_OBJECT" ∨ a.kind = "UNION" ∨ a.kind = "OBJECT"
          · rw [if_pos hbase] at h
            by_cases hname : a.name ≠ b.name
            · rw [if_pos hname] at h; cases h
            · rw [if_neg hname] at h
              cases h
              cases i <;> simp [isNonNull_mk, hA]
          · rw [if_neg hbase] at h
            by_cases hlist : a.kind = "LIST"
            · rw [if_pos hlist] at h
              cases hoa : a.ofType with
              | none => rw [hoa] at h; cases h
              | some ia =>
                rw [hoa] at h
                cases hob : b.ofType with
                | none => rw [hob] at h; cases h
                | some ib =>
                  rw [hob] at h
                  dsimp only at h
                  cases hm : mergeTypeRefsF g ia ib i with
                  | error e => rw [hm] at h; cases h
                  | ok inner =>
                    rw [hm] at h
                    cases h
                    cases i <;> simp [isNonNull_mk]
            · rw [if_neg hlist] at h
              cases h

theorem mergeTypeRefs_ok_nonNull {a b : ITypeRef} {i : Bool} {r : ITypeRef}
    (h : mergeTypeRefs a b i = .ok r) :
    r.isNonNull = (if i then a.isNonNull || b.isNonNull
                   else a.isNonNull && b.isNonNull) :=
  mergeTypeRefsF_nonNull (a.size + b.size) a b i r le_rfl le_rfl h

theorem mergeTypeRefs_ok_strip {a b : ITypeRef} {i : Bool} {r : ITypeRef}
    (h : mergeTypeRefs a b i = .ok r)
    (hnn : (a.isNonNull || b.isNonNull) = true) :
    mergeTypeRefs a.stripNN b.stripNN i = .ok r.stripNN := by
  unfold mergeTypeRefs at h
  have hpa := a.size_pos
  have hpb := b.size_pos
  obtain ⟨g, hg⟩ : ∃ g, a.size + b.size = g + 1 := ⟨a.size + b.size - 1, by omega⟩
  rw [hg] at h
  simp only [mergeTypeRefsF] at h
  by_cases hA : a.kind = "NON_NULL"
  · simp only [if_pos hA] at h
    cases hoa : a.ofType with
    | none => rw [hoa] at h; cases h
    | some a' =>
      rw [hoa] at h
      dsimp only at h
      have hsa := ITypeRef.ofType_size_lt hoa
      rw [stripNN_of_ofType hA hoa]
      by_cases hB : b.kind = "NON_NULL"
      · simp only [if_pos hB] at h
        cases hob : b.ofType with
        | none => rw [hob] at h; cases h
        | some b' =>
          rw [hob] at h
          dsimp only at h
          have hsb := ITypeRef.ofType_size_lt hob
          rw [stripNN_of_ofType hB hob]
          cases hm : mergeTypeRefsF g a' b' i with
          | error e => rw [hm] at h; cases h
          | ok mres =>
            rw [hm] at h
            simp only [nnWrap] at h
            rw [if_pos (by cases i <;> simp)] at h
            cases h
            rw [show (ITypeRef.mk "NON_NULL" "" (some mres)).stripNN = mres from rfl]
            exact (mergeTypeRefs_eq_F (by omega)).trans hm
      · simp only [if_neg hB] at h
        rw [stripNN_of_not_nonNull (isNonNull_false_of_kind_ne hB)]
        cases hm : mergeTypeRefsF g a' b i with
        | error e => rw [hm] at h; cases h
        | ok mres =>
          rw [hm] at h
          simp only [nnWrap, Bool.and_false, Bool.or_false] at h
          cases i with
          | true =>
            rw [if_pos (by simp)] at h
            cases h
            rw [show (ITypeRef.mk "NON_NULL" "" (some mres)).stripNN = mres from rfl]
            exact (mergeTypeRefs_eq_F (by omega)).trans hm
          | false =>
            rw [if_neg (by simp)] at h
            cases h
            have hr0 : r.isNonNull = false := by
              have hv := mergeTypeRefsF_nonNull (a'.size + b.size) a' b false r
                le_rfl (by omega) hm
              rw [hv, isNonNull_false_of_kind_ne hB]
              simp
            rw [stripNN_of_not_nonNull hr0]
            exact (mergeTypeRefs_eq_F (by omega)).trans hm
  · have ha0 : a.isNonNull = false := isNonNull_false_of_kind_ne hA
    rw [stripNN_of_not_nonNull ha0]
    simp only [if_neg hA] at h
    by_cases hB : b.kind = "NON_NULL"
    · simp only [if_pos hB] at h
      cases hob : b.ofType with
      | none => rw [hob] at h; cases h
      | some b' =>
        rw [hob] at h
        dsimp only at h
        have hsb := ITypeRef.ofType_size_lt hob
        rw [stripNN_of_ofType hB hob]
        cases hm : mergeTypeRefsF g a b' i with
        | error e => rw [hm] at h; cases h
        | ok mres =>
          rw [hm] at h
          simp only [nnWrap, Bool.false_and, Bool.false_or] at h
          cases i with
          | true =>
            rw [if_pos (by simp)] at h
            cases h
            rw [show (ITypeRef.mk "NON_NULL" "" (some mres)).stripNN = mres from rfl]
            exact (mergeTypeRefs_eq_F (by omega)).trans hm
          | false =>
            rw [if_neg (by simp)] at h
            cases h
            have hr0 : r.isNonNull = false := by
              have hv := mergeTypeRefsF_nonNull (a.size + b'.size) a b' false r
                le_rfl (by omega) hm
              rw [hv, ha0]
              simp
            rw [stripNN_of_not_nonNull hr0]
            exact (mergeTypeRefs_eq_F (by omega)).trans hm
    · rw [ha0, isNonNull_false_of_kind_ne hB] at hnn
      simp at hnn

theorem mergeTypeRefs_ok_list {a b : ITypeRef} {i : Bool} {r : ITypeRef}
    (h : mergeTypeRefs a b i = .ok r)
    (ha : a.isNonNull = false) (hb : b.isNonNull = false)
    (hl : a.kind = "LIST") :
    ∃ ia ib ir, a.ofType = some ia ∧ b.ofType = some ib ∧
      r = .mk "LIST" "" (some ir) ∧ mergeTypeRefs ia ib i = .ok ir := by
  unfold mergeTypeRefs at h
  have hpa := a.size_pos
  have hpb := b.size_pos
  obtain ⟨g, hg⟩ : ∃ g, a.size + b.size = g + 1 := ⟨a.size + b.size - 1, by omega⟩
  rw [hg] at h
  simp only [mergeTypeRefsF] at h
  have hA := kind_ne_of_isNonNull_false ha
  have hB := kind_ne_of_isNonNull_false hb
  rw [if_neg hA, if_neg hB] at h
  by_cases hk : a.kind ≠ b.kind
  · rw [if_pos hk] at h; cases h
  · rw [if_neg hk] at h
    have hbase : ¬(a.kind = "SCALAR" ∨ a.kind = "ENUM" ∨ a.kind = "INPUT_OBJECT" ∨
        a.kind = "UNION" ∨ a.kind = "OBJECT") := by
      rw [hl]; decide
    rw [if_neg hbase, if_pos hl] at h
    cases hoa : a.ofType with
    | none => rw [hoa] at h; cases h
    | some ia =>
      rw [hoa] at h
      cases hob : b.ofType with
      | none => rw [hob] at h; cases h
      | some ib =>
        rw [hob] at h
        dsimp only at h
        have hsa := ITypeRef.ofType_size_lt hoa
        have hsb := ITypeRef.ofType_size_lt hob
        cases hm : mergeTypeRefsF g ia ib i with
        | error e => rw [hm] at h; cases h
        | ok inner =>
          rw [hm] at h
          cases h
          exact ⟨ia, ib, inner, rfl, rfl, rfl,
            (mergeTypeRefs_eq_F (by omega)).trans hm⟩

theorem mergeTypeRefsF_comm : ∀ (n : Nat) {f : Nat} (a b : ITypeRef) (i : Bool)
    (r : ITypeRef), a.size + b.size ≤ n → n ≤ f →
    mergeTypeRefsF f a b i = .ok r → mergeTypeRefsF f b a i = .ok r := by
  intro n
  induction n with
  | zero =>
    intro f a b i r hs _ _
    have := a.size_pos
    omega
  | succ m ih =>
    intro f a b i r hs hf h
    have hpa := a.size_pos
    have hpb := b.size_pos
    obtain ⟨g, rfl⟩ : ∃ g, f = g + 1 := ⟨f - 1, by omega⟩
    simp only [mergeTypeRefsF] at h ⊢
    by_cases hA : a.kind = "NON_NULL"
    · simp only [if_pos hA] at h
      cases hoa : a.ofType with
      | none => rw [hoa] at h; cases h
      | some a' =>
        rw [hoa] at h
        dsimp only at h
        have hsa := ITypeRef.ofType_size_lt hoa
        by_cases hB : b.kind = "NON_NULL"
        · simp only [if_pos hB] at h
          simp only [if_pos hB]
          cases hob : b.ofType with
          | none => rw [hob] at h; cases h
          | some b' =>
            rw [hob] at h
            dsimp only at h
            dsimp only
            rw [if_pos hA]
            have hsb := ITypeRef.ofType_size_lt hob
            cases hm : mergeTypeRefsF g a' b' i with
            | error e => rw [hm] at h; cases h
            | ok mres =>
              rw [hm] at h
              rw [@ih g a' b' i mres (by omega) (by omega) hm]
              exact h
        · simp only [if_neg hB] at h
          simp only [if_neg hB, if_pos hA]
          cases hm : mergeTypeRefsF g a' b i with
          | error e => rw [hm] at h; cases h
          | ok mres =>
            rw [hm] at h
            rw [@ih g a' b i mres (by omega) (by omega) hm]
            simp only [nnWrap, Bool.and_false, Bool.false_and, Bool.or_false] at h ⊢
            exact h
    · simp only [if_neg hA] at h
      by_cases hB : b.kind = "NON_NULL"
      · simp only [if_pos hB] at h
        simp only [if_pos hB]
        cases hob : b.ofType with
        | none => rw [hob] at h; cases h
        | some b' =>
          rw [hob] at h
          dsimp only at h
          dsimp only
          rw [if_neg hA]
          have hsb := ITypeRef.ofType_size_lt hob
          cases hm : mergeTypeRefsF g a b' i with
          | error e => rw [hm] at h; cases h
          | ok mres =>
            rw [hm] at h
            rw [@ih g a b' i mres (by omega) (by omega) hm]
            simp only [nnWrap, Bool.and_false, Bool.false_and, Bool.or_false] at h ⊢
            exact h
      · simp only [if_neg hA, if_neg hB] at h ⊢
        by_cases hk : a.kind ≠ b.kind
        · rw [if_pos hk] at h; cases h
        · have hk' : a.kind = b.kind := not_ne_iff.mp hk
          rw [if_neg hk] at h
          rw [if_neg (not_ne_iff.mpr hk'.symm)]
          by_cases hbase : a.kind = "SCALAR" ∨ a.kind = "ENUM" ∨
              a.kind = "INPUT_OBJECT" ∨ a.kind = "UNION" ∨ a.kind = "OBJECT"
          · rw [if_pos hbase] at h
            rw [if_pos (by rw [← hk']; exact hbase)]
            by_cases hname : a.name ≠ b.name
            · rw [if_pos hname] at h; cases h
            · have hn' : a.name = b.name := not_ne_iff.mp hname
              rw [if_neg hname] at h
              rw [if_neg (not_ne_iff.mpr hn'.symm)]
              rw [← hk', ← hn']
              exact h
          · rw [if_neg hbase] at h
            rw [if_neg (by rw [← hk']; exact hbase)]
            by_cases hlist : a.kind = "LIST"
            · rw [if_pos hlist] at h
              rw [if_pos (hk' ▸ hlist)]
              cases hoa : a.ofType with
              | none =>
                rw [hoa] at h
                cases hob : b.ofType with
                | none => rw [hob] at h; cases h
                | some ib => rw [hob] at h; dsimp only at h; cases h
              | some ia =>
                rw [hoa] at h
                cases hob : b.ofType with
                | none => rw [hob] at h; dsimp only at h; cases h
                | some ib =>
                  rw [hob] at h
                  dsimp only at h
                  dsimp only
                  have hsa := ITypeRef.ofType_size_lt hoa
                  have hsb := ITypeRef.ofType_size_lt hob
                  cases hm : mergeTypeRefsF g ia ib i with
                  | error e => rw [hm] at h; cases h
                  | ok inner =>
                    rw [hm] at h
                    rw [@ih g ia ib i inner (by omega) (by omega) hm]
                    exact h
            · rw [if_neg hlist] at h
              cases h

theorem mergeTypeRefs_comm {a b : ITypeRef} {i : Bool} {r : ITypeRef}
    (h : mergeTypeRefs a b i = .ok r) : mergeTypeRefs b a i = .ok r := by
  unfold mergeTypeRefs at h ⊢
  rw [Nat.add_comm b.size a.size]
  exact mergeTypeRefsF_comm (a.size + b.size) a b i r le_rfl le_rfl h

theorem mergeGroups_cons_ok {α β : Type}
    {step : String → List α → Except MergeErr (List β)} {groups : String → List α}
    {n : String} {rest : List String} {L : List β} :
    mergeGroups step groups (n :: rest) = .ok L ↔
      ∃ hd tl, step n (groups n) = .ok hd ∧
        mergeGroups step groups rest = .ok tl ∧ L = hd ++ tl := by
  cases h1 : step n (groups n) with
  | error e => simp [mergeGroups, h1]
  | ok hd =>
    cases h2 : mergeGroups step groups rest with
    | error e => simp [mergeGroups, h1, h2]
    | ok tl =>
      simp only [mergeGroups, h1, h2, Except.ok.injEq]
      constructor
      · rintro rfl; exact ⟨hd, tl, rfl, rfl, rfl⟩
      · rintro ⟨hd', tl', h3, h4, rfl⟩
        cases h3; cases h4; rfl

theorem mergeGroups_steps_ok {α β : Type}
    {step : String → List α → Except MergeErr (List β)} {groups : String → List α}
    {names : List String} {L : List β}
    (h : mergeGroups step groups names = .ok L) :
    ∀ n ∈ names, ∃ l, step n (groups n) = .ok l := by
  induction names generalizing L with
  | nil => simp
  | cons m rest ih =>
    rw [mergeGroups_cons_ok] at h
    obtain ⟨hd, tl, h1, h2, rfl⟩ := h
    intro n hn
    rcases List.mem_cons.mp hn with rfl | hn
    · exact ⟨hd, h1⟩
    · exact ih h2 n hn

theorem mergeGroups_mem {α β : Type}
    {step : String → List α → Except MergeErr (List β)} {groups : String → List α}
    {names : List String} {L : List β}
    (h : mergeGroups step groups names = .ok L) :
    ∀ x ∈ L, ∃ n ∈ names, ∃ l, step n (groups n) = .ok l ∧ x ∈ l := by
  induction names generalizing L with
  | nil =>
    simp only [mergeGroups, Except.ok.injEq] at h
    subst h; simp
  | cons m rest ih =>
    rw [mergeGroups_cons_ok] at h
    obtain ⟨hd, tl, h1, h2, rfl⟩ := h
    intro x hx
    rcases List.mem_append.mp hx with hx | hx
    · exact ⟨m, by simp, hd, h1, hx⟩
    · obtain ⟨n, hn, l, hs, hl⟩ := ih h2 x hx
      exact ⟨n, by simp [hn], l, hs, hl⟩

theorem mergeGroups_mem_of {α β : Type}
    {step : String → List α → Except MergeErr (List β)} {groups : String → List α}
    {names : List String} {L : List β} {n : String} {l : List β} {x : β}
    (h : mergeGroups step groups names = .ok L)
    (hn : n ∈ names) (hs : step n (groups n) = .ok l) (hx : x ∈ l) : x ∈ L := by
  induction names generalizing L with
  | nil => cases hn
  | cons m rest ih =>
    rw [mergeGroups_cons_ok] at h
    obtain ⟨hd, tl, h1, h2, rfl⟩ := h
    rcases List.mem_cons.mp hn with rfl | hn
    · rw [h1] at hs
      cases hs
      exact List.mem_append.mpr (.inl hx)
    · exact List.mem_append.mpr (.inr (ih h2 hn))

theorem mergeGroups_error {α β : Type}
    {step : String → List α → Except MergeErr (List β)} {groups : String → List α}
    {names : List String} {e : MergeErr}
    (h : mergeGroups step groups names = .error e) :
    ∃ n ∈ names, step n (groups n) = .error e := by
  induction names with
  | nil => simp [mergeGroups] at h
  | cons m rest ih =>
    cases h1 : step m (groups m) with
    | error e' =>
      simp only [mergeGroups, h1, Except.error.injEq] at h
      exact ⟨m, by simp, by rw [h1, h]⟩
    | ok hd =>
      cases h2 : mergeGroups step groups rest with
      | error e' =>
        simp only [mergeGroups, h1, h2, Except.error.injEq] at h
        obtain ⟨n, hn, hs⟩ := ih (h ▸ h2)
        exact ⟨n, by simp [hn], hs⟩
      | ok tl => simp [mergeGroups, h1, h2] at h

theorem mergeGroups_rel {α α' β γ : Type} (R : β → γ → Prop)
    {stepF : String → List α → Except MergeErr (List β)} {groupsF : String → List α}
    {stepR : String → List α' → Except MergeErr (List γ)} {groupsR : String → List α'}
    {names : List String} {L : List β}
    (H : ∀ n ∈ names, ∀ l, stepF n (groupsF n) = .ok l →
      ∃ l', stepR n (groupsR n) = .ok l' ∧ List.Forall₂ R l l')
    (h : mergeGroups stepF groupsF names = .ok L) :
    ∃ L', mergeGroups stepR groupsR names = .ok L' ∧ List.Forall₂ R L L' := by
  induction names generalizing L with
  | nil =>
    simp only [mergeGroups, Except.ok.injEq] at h
    subst h
    exact ⟨[], rfl, List.Forall₂.nil⟩
  | cons m rest ih =>
    rw [mergeGroups_cons_ok] at h
    obtain ⟨hd, tl, h1, h2, rfl⟩ := h
    obtain ⟨hd', hs', hr⟩ := H m (by simp) hd h1
    obtain ⟨tl', ht', htr⟩ := ih (fun n hn => H n (by simp [hn])) h2
    exact ⟨hd' ++ tl', mergeGroups_cons_ok.mpr ⟨hd', tl', hs', ht', rfl⟩,
      List.rel_append hr htr⟩

theorem filter_name_cases {α : Type} {g : α → String} {l : List α}
    (h : (l.map g).Nodup) (n : String) :
    l.filter (fun x => g x == n) = [] ∨
      ∃ x, x ∈ l ∧ g x = n ∧ l.filter (fun x => g x == n) = [x] := by
  have hlen := filter_name_length_le_one h n
  match hf : l.filter (fun x => g x == n) with
  | [] => exact .inl rfl
  | [x] =>
    have hx := List.mem_filter.mp (hf ▸ List.mem_singleton_self x)
    exact .inr ⟨x, hx.1, by simpa using hx.2, rfl⟩
  | x :: y :: rest => rw [hf] at hlen; simp at hlen

theorem groupFor_pair_cases {α : Type} {g : α → String} {a b : List α} {n : String}
    (ha : (a.map g).Nodup) (hb : (b.map g).Nodup)
    {p0 p1 : α} {ps : List α} (hg : groupFor g a b n = p0 :: p1 :: ps) :
    p0 ∈ a ∧ p1 ∈ b ∧ g p0 = n ∧ g p1 = n ∧ ps = [] := by
  rcases filter_name_cases ha n with hfa | ⟨ya, hya, hgya, hfa⟩ <;>
    rcases filter_name_cases hb n with hfb | ⟨yb, hyb, hgyb, hfb⟩ <;>
    rw [groupFor_eq_append, hfa, hfb] at hg <;> simp at hg
  obtain ⟨h0, h1, h2⟩ := hg
  subst h0
  subst h1
  exact ⟨hya, hyb, hgya, hgyb, h2⟩

theorem mergeGroups_inter_origin {α β : Type} (getName : α → String)
    (nameB : β → String)
    {step : String → List α → Except MergeErr (List β)} {a b : List α} {L : List β}
    (ha : (a.map getName).Nodup) (hb : (b.map getName).Nodup)
    (hstep : ∀ n l x, step n (groupFor getName a b n) = .ok l → x ∈ l →
      nameB x = n ∧ 2 ≤ (groupFor getName a b n).length)
    (h : mergeGroups step (groupFor getName a b)
      (sortedNames ((a ++ b).map getName)) = .ok L) :
    ∀ x ∈ L, (∃ ya ∈ a, getName ya = nameB x) ∧ (∃ yb ∈ b, getName yb = nameB x) := by
  intro x hx
  obtain ⟨n, hn, l, hs, hl⟩ := mergeGroups_mem h x hx
  obtain ⟨hname, hlen⟩ := hstep n l x hs hl
  rcases filter_name_cases ha n with hfa | ⟨ya, hya, hgya, hfa⟩ <;>
    rcases filter_name_cases hb n with hfb | ⟨yb, hyb, hgyb, hfb⟩ <;>
    rw [groupFor_eq_append, hfa, hfb] at hlen <;> simp at hlen
  subst hname
  exact ⟨⟨ya, hya, hgya⟩, ⟨yb, hyb, hgyb⟩⟩

theorem mergeInputFields_inter_origin {a b : List IInputField}
    {l : List IInputField}
    (ha : inputFieldsWF a) (hb : inputFieldsWF b)
    (h : mergeInputFields a b .intersection = .ok l) :
    ∀ x ∈ l, (∃ ya ∈ a, ya.name = x.name) ∧ (∃ yb ∈ b, yb.name = x.name) := by
  unfold mergeInputFields at h
  unfold inputFieldsWF at ha hb
  refine mergeGroups_inter_origin (fun f : IInputField => f.name)
    (fun f : IInputField => f.name) ha hb ?_ h
  intro n lx x hs hlx
  match hg : groupFor (fun f : IInputField => f.name) a b n with
  | [] => rw [hg] at hs; simp [inputFieldStep] at hs
  | [p0] =>
    rw [hg] at hs
    by_cases hk : p0.type.kind = "NON_NULL"
    · simp [inputFieldStep, hk] at hs
    · simp only [inputFieldStep, if_neg hk] at hs
      rw [if_neg (by decide)] at hs
      cases hs
      cases hlx
  | p0 :: p1 :: ps =>
    rw [hg] at hs
    simp only [inputFieldStep] at hs
    cases hm : mergeTypeRefs p0.type p1.type true with
    | error e => rw [hm] at hs; cases hs
    | ok mr =>
      rw [hm] at hs
      cases hs
      obtain rfl := List.mem_singleton.mp hlx
      exact ⟨rfl, by simp⟩

theorem mergeFields_inter_origin {a b : List IField} {l : List IField}
    (ha : (a.map fun f => f.name).Nodup) (hb : (b.map fun f => f.name).Nodup)
    (h : mergeFields a b .intersection = .ok l) :
    ∀ x ∈ l, (∃ ya ∈ a, ya.name = x.name) ∧ (∃ yb ∈ b, yb.name = x.name) := by
  unfold mergeFields at h
  refine mergeGroups_inter_origin (fun f : IField => f.name)
    (fun f : IField => f.name) ha hb ?_ h
  intro n lx x hs hlx
  match hg : groupFor (fun f : IField => f.name) a b n with
  | [] => rw [hg] at hs; simp [fieldStep] at hs
  | [p0] =>
    rw [hg] at hs
    simp only [fieldStep] at hs
    rw [if_neg (by decide)] at hs
    cases hs
    cases hlx
  | p0 :: p1 :: ps =>
    rw [hg] at hs
    simp only [fieldStep] at hs
    cases hm : mergeTypeRefs p0.type p1.type false with
    | error e => rw [hm] at hs; cases hs
    | ok typ =>
      rw [hm] at hs
      cases hargs : mergeInputFields p0.args p1.args .intersection with
      | error e => rw [hargs] at hs; cases hs
      | ok args =>
        rw [hargs] at hs
        cases hs
        obtain rfl := List.mem_singleton.mp hlx
        exact ⟨rfl, by simp⟩

theorem mergePossibleTypes_inter_origin {a b : List ITypeRef} {l : List ITypeRef}
    (ha : (a.map fun t => t.name).Nodup) (hb : (b.map fun t => t.name).Nodup)
    (h : mergePossibleTypes a b .intersection = .ok l) :
    ∀ x ∈ l, (∃ ya ∈ a, ya.name = x.name) ∧ (∃ yb ∈ b, yb.name = x.name) := by
  unfold mergePossibleTypes at h
  refine mergeGroups_inter_origin (fun t : ITypeRef => t.name)
    (fun t : ITypeRef => t.name) ha hb ?_ h
  intro n lx x hs hlx
  match hg : groupFor (fun t : ITypeRef => t.name) a b n with
  | [] => rw [hg] at hs; simp [possibleTypeStep] at hs
  | [p0] =>
    rw [hg] at hs
    simp only [possibleTypeStep] at hs
    rw [if_neg (by decide)] at hs
    cases hs
    cases hlx
  | p0 :: p1 :: ps =>
    rw [hg] at hs
    simp only [possibleTypeStep] at hs
    cases hs
    obtain rfl := List.mem_singleton.mp hlx
    have : x ∈ groupFor (fun t : ITypeRef => t.name) a b n := by rw [hg]; simp
    exact ⟨(mem_groupFor.mp this).2, by simp⟩

theorem mergeEnumValues_inter_origin {a b : List IEnumValue} {l : List IEnumValue}
    (ha : (a.map fun v => v.name).Nodup) (hb : (b.map fun v => v.name).Nodup)
    (h : mergeEnumValues a b .intersection = .ok l) :
    ∀ x ∈ l, (∃ ya ∈ a, ya.name = x.name) ∧ (∃ yb ∈ b, yb.name = x.name) := by
  unfold mergeEnumValues at h
  refine mergeGroups_inter_origin (fun v : IEnumValue => v.name)
    (fun v : IEnumValue => v.name) ha hb ?_ h
  intro n lx x hs hlx
  match hg : groupFor (fun v : IEnumValue => v.name) a b n with
  | [] => rw [hg] at hs; simp [enumValueStep] at hs
  | [p0] =>
    rw [hg] at hs
    simp only [enumValueStep] at hs
    rw [if_neg (by decide)] at hs
    cases hs
    cases hlx
  | p0 :: p1 :: ps =>
    rw [hg] at hs
    simp only [enumValueStep] at hs
    cases hs
    obtain rfl := List.mem_singleton.mp hlx
    have : x ∈ groupFor (fun v : IEnumValue => v.name) a b n := by rw [hg]; simp
    exact ⟨(mem_groupFor.mp this).2, by simp⟩

theorem mergeTypes_cases {ta tb : IType} {mode : MergeMode} {m : IType}
    (h : mergeTypes ta tb mode = .ok m) :
    m.name = ta.name ∧ m.kind = ta.kind ∧ ta.kind = tb.kind ∧
    ((ta.kind = "INPUT_OBJECT" ∧
        ∃ l, mergeInputFields ta.inputFields tb.inputFields mode = .ok l ∧
          m = ⟨ta.name, ta.kind, [], l, [], []⟩) ∨
     (ta.kind = "OBJECT" ∧
        ∃ l, mergeFields ta.fields tb.fields mode = .ok l ∧
          m = ⟨ta.name, ta.kind, l, [], [], []⟩) ∨
     (ta.kind = "UNION" ∧
        ∃ l, mergePossibleTypes ta.possibleTypes tb.possibleTypes mode = .ok l ∧
          m = ⟨ta.name, ta.kind, [], [], l, []⟩) ∨
     (ta.kind = "ENUM" ∧
        ∃ l, mergeEnumValues ta.enumValues tb.enumValues mode = .ok l ∧
          m = ⟨ta.name, ta.kind, [], [], [], l⟩) ∨
     (ta.kind = "SCALAR" ∧ m = ⟨ta.name, ta.kind, [], [], [], []⟩)) := by
  unfold mergeTypes at h
  by_cases hk : ta.kind ≠ tb.kind
  · rw [if_pos hk] at h; cases h
  rw [if_neg hk] at h
  have hk' : ta.kind = tb.kind := not_ne_iff.mp hk
  by_cases h1 : ta.kind = "INPUT_OBJECT"
  · rw [if_pos h1] at h
    cases hm : mergeInputFields ta.inputFields tb.inputFields mode with
    | error e => rw [hm] at h; cases h
    | ok l =>
      rw [hm] at h
      cases h
      exact ⟨rfl, rfl, hk', .inl ⟨h1, l, rfl, rfl⟩⟩
  rw [if_neg h1] at h
  by_cases h2 : ta.kind = "OBJECT"
  · rw [if_pos h2] at h
    cases hm : mergeFields ta.fields tb.fields mode with
    | error e => rw [hm] at h; cases h
    | ok l =>
      rw [hm] at h
      cases h
      exact ⟨rfl, rfl, hk', .inr (.inl ⟨h2, l, rfl, rfl⟩)⟩
  rw [if_neg h2] at h
  by_cases h3 : ta.kind = "UNION"
  · rw [if_pos h3] at h
    cases hm : mergePossibleTypes ta.possibleTypes tb.possibleTypes mode with
    | error e => rw [hm] at h; cases h
    | ok l =>
      rw [hm] at h
      cases h
      exact ⟨rfl, rfl, hk', .inr (.inr (.inl ⟨h3, l, rfl, rfl⟩))⟩
  rw [if_neg h3] at h
  by_cases h4 : ta.kind = "ENUM"
  · rw [if_pos h4] at h
    cases hm : mergeEnumValues ta.enumValues tb.enumValues mode with
    | error e => rw [hm] at h; cases h
    | ok l =>
      rw [hm] at h
      cases h
      exact ⟨rfl, rfl, hk', .inr (.inr (.inr (.inl ⟨h4, l, rfl, rfl⟩)))⟩
  rw [if_neg h4] at h
  by_cases h5 : ta.kind = "SCALAR"
  · rw [if_pos h5] at h
    cases h
    exact ⟨rfl, rfl, hk', .inr (.inr (.inr (.inr ⟨h5, rfl⟩)))⟩
  · rw [if_neg h5] at h
    cases h

/-- C2: for all type references on which `mergeTypeRefs` succeeds, the result
of `mergeTypeRefs(a, b, true)` is NON_NULL iff `a` or `b` is NON_NULL, and the
result of `mergeTypeRefs(a, b, false)` is NON_NULL iff both `a` and `b` are.
The property holds recursively at each level of nesting: the statement is
universally quantified, and the second and third conjuncts exhibit the inner
levels (after stripping NON_NULL, resp. inside a LIST) as further successful
`mergeTypeRefs` calls, to which the first conjunct again applies. -/
theorem mergeTypeRefs_nonNull_spec (a b : ITypeRef) (i : Bool) (r : ITypeRef)
    (h : mergeTypeRefs a b i = .ok r) :
    (r.isNonNull = if i then a.isNonNull || b.isNonNull
                   else a.isNonNull && b.isNonNull) ∧
    ((a.isNonNull || b.isNonNull) = true →
      mergeTypeRefs a.stripNN b.stripNN i = .ok r.stripNN) ∧
    (a.isNonNull = false → b.isNonNull = false → a.kind = "LIST" →
      ∃ ia ib ir, a.ofType = some ia ∧ b.ofType = some ib ∧
        r = .mk "LIST" "" (some ir) ∧ mergeTypeRefs ia ib i = .ok ir) :=
  ⟨mergeTypeRefs_ok_nonNull h,
   fun hnn => mergeTypeRefs_ok_strip h hnn,
   fun ha hb hl => mergeTypeRefs_ok_list h ha hb hl⟩

/-- Witness for C2 at `Int! ∪ Int` in input position. -/
theorem mergeTypeRefs_nonNull_spec_witness :
    mergeTypeRefs nnIntRef intRef true = .ok nnIntRef ∧
    ((nnIntRef.isNonNull = if true then nnIntRef.isNonNull || intRef.isNonNull
        else nnIntRef.isNonNull && intRef.isNonNull) ∧
     ((nnIntRef.isNonNull || intRef.isNonNull) = true →
       mergeTypeRefs nnIntRef.stripNN intRef.stripNN true = .ok nnIntRef.stripNN) ∧
     (nnIntRef.isNonNull = false → intRef.isNonNull = false → nnIntRef.kind = "LIST" →
       ∃ ia ib ir, nnIntRef.ofType = some ia ∧ intRef.ofType = some ib ∧
         nnIntRef = .mk "LIST" "" (some ir) ∧ mergeTypeRefs ia ib true = .ok ir)) :=
  ⟨by decide, mergeTypeRefs_nonNull_spec nnIntRef intRef true nnIntRef (by decide)⟩

/-- C9: `mergeSchemaSlice([s], mode)` returns `s` itself unchanged, for every
schema `s` — including schemas that a two-schema merge would reject —
bypassing all merging, validation and name sorting. -/
theorem mergeSchemaSlice_singleton (s : IQueryResult) (mode : MergeMode) :
    mergeSchemaSlice [s] mode = .ok s := rfl

theorem typeStep_error_shape {mode : MergeMode} {n : String} {g : List IType}
    {e : MergeErr} (h : typeStep mode n g = .error e) :
    e = .nilDeref ∨ ∃ e', e = .cantMergeType n e' := by
  match g with
  | [] =>
    simp only [typeStep, Except.error.injEq] at h
    exact .inl h.symm
  | [p0] =>
    cases mode <;> simp [typeStep] at h
  | p0 :: p1 :: rest =>
    simp only [typeStep] at h
    cases hm : mergeTypes p0 p1 mode with
    | error e' =>
      rw [hm] at h
      simp only [Except.error.injEq] at h
      exact .inr ⟨e', h.symm⟩
    | ok m => rw [hm] at h; cases h

theorem mergeSchemas_error_ne_noSchemas {a b : IQueryResult} {mode : MergeMode}
    {e : MergeErr} (h : mergeSchemas a b mode = .error e) : e ≠ .noSchemas := by
  unfold mergeSchemas at h
  cases hg : mergeGroups (typeStep mode) (groupFor (fun t => t.name) a.types b.types)
      (sortedNames ((a.types ++ b.types).map fun t => t.name)) with
  | error e' =>
    rw [hg] at h
    cases h
    obtain ⟨n, _, hs⟩ := mergeGroups_error hg
    rcases typeStep_error_shape hs with rfl | ⟨e'', rfl⟩ <;> intro hc <;> cases hc
  | ok l => rw [hg] at h; cases h

theorem mergeSchemaSliceGo_ne_noSchemas {mode : MergeMode} :
    ∀ (rest : List IQueryResult) (s : IQueryResult),
      mergeSchemaSliceGo mode s rest ≠ .error .noSchemas := by
  intro rest
  induction rest with
  | nil => intro s h; cases h
  | cons x xs ih =>
    intro s h
    simp only [mergeSchemaSliceGo] at h
    cases hm : mergeSchemas s x mode with
    | error e =>
      rw [hm] at h
      cases h
      exact mergeSchemas_error_ne_noSchemas hm rfl
    | ok m =>
      rw [hm] at h
      exact ih m h

theorem mergeSchemaSliceGo_eq_foldlM (mode : MergeMode) :
    ∀ (rest : List IQueryResult) (s : IQueryResult),
      mergeSchemaSliceGo mode s rest =
        rest.foldlM (fun acc x => mergeSchemas acc x mode) s := by
  intro rest
  induction rest with
  | nil => intro s; rfl
  | cons x xs ih =>
    intro s
    simp only [mergeSchemaSliceGo, List.foldlM_cons]
    cases hm : mergeSchemas s x mode with
    | error e => rfl
    | ok m => exact ih m

/-- C7: `mergeSchemaSlice` fails with `no schemas` exactly on the empty list;
on a non-empty list it is the left fold of `mergeSchemas` over the tail
starting from the first element, propagating the first merge error. -/
theorem mergeSchemaSlice_spec (mode : MergeMode) :
    (∀ l : List IQueryResult, mergeSchemaSlice l mode = .error .noSchemas ↔ l = []) ∧
    (∀ (s : IQueryResult) (rest : List IQueryResult),
      mergeSchemaSlice (s :: rest) mode =
        rest.foldlM (fun acc x => mergeSchemas acc x mode) s) := by
  constructor
  · intro l
    constructor
    · intro h
      cases l with
      | nil => rfl
      | cons s rest => exact absurd h (mergeSchemaSliceGo_ne_noSchemas rest s)
    · rintro rfl; rfl
  · intro s rest
    exact mergeSchemaSliceGo_eq_foldlM mode rest s

theorem mergeInputFields_ok_no_lone_nonNull {a b : List IInputField}
    {mode : MergeMode} {l : List IInputField}
    (h : mergeInputFields a b mode = .ok l) :
    ∀ x : IInputField, groupFor (fun f => f.name) a b x.name = [x] →
      ¬x.type.kind = "NON_NULL" := by
  intro x hgroup hkind
  have hx : x ∈ groupFor (fun f => f.name) a b x.name := by
    rw [hgroup]; exact List.mem_singleton_self x
  have hmem := (mem_groupFor.mp hx).1
  have hname : x.name ∈ (a ++ b).map (fun f => f.name) :=
    List.mem_map.mpr ⟨x, List.mem_append.mpr hmem, rfl⟩
  have hns : x.name ∈ sortedNames ((a ++ b).map fun f => f.name) :=
    mem_sortedNames.mpr hname
  obtain ⟨lx, hstep⟩ := mergeGroups_steps_ok h x.name hns
  rw [hgroup] at hstep
  simp [inputFieldStep, hkind] at hstep

theorem groupFor_ne_nil_of_mem_names {α : Type} (g : α → String) {a b : List α}
    {n : String} (h : n ∈ (a ++ b).map g) : groupFor g a b n ≠ [] := by
  obtain ⟨y, hy, rfl⟩ := List.mem_map.mp h
  exact groupFor_ne_nil g (List.mem_append.mp hy)

theorem inputFields_go_fails {mode : MergeMode} {groups : String → List IInputField} :
    ∀ names : List String,
      (∀ n ∈ names, groups n ≠ []) →
      (∀ n ∈ names, ∀ p0 p1 rest, groups n = p0 :: p1 :: rest →
        ∃ mr, mergeTypeRefs p0.type p1.type true = .ok mr) →
      (∃ n ∈ names, ∃ p0, groups n = [p0] ∧ p0.type.kind = "NON_NULL") →
      ∃ n', mergeGroups (inputFieldStep mode) groups names =
        .error (.newFieldNonNull n') := by
  intro names
  induction names with
  | nil => rintro _ _ ⟨n, hn, _⟩; cases hn
  | cons m rest ih =>
    rintro hne hpair ⟨n, hn, p0, hg, hk⟩
    match hgm : groups m with
    | [] => exact absurd hgm (hne m (by simp))
    | [q0] =>
      by_cases hq : q0.type.kind = "NON_NULL"
      · exact ⟨m, by simp [mergeGroups, hgm, inputFieldStep, hq]⟩
      · have hn' : n ∈ rest := by
          rcases List.mem_cons.mp hn with rfl | h'
          · rw [hgm] at hg; cases hg; exact absurd hk hq
          · exact h'
        obtain ⟨n', hres⟩ := ih (fun u hu => hne u (by simp [hu]))
          (fun u hu => hpair u (by simp [hu])) ⟨n, hn', p0, hg, hk⟩
        refine ⟨n', ?_⟩
        cases mode <;> simp [mergeGroups, hgm, inputFieldStep, hq, hres]
    | q0 :: q1 :: qrest =>
      obtain ⟨mr, hmr⟩ := hpair m (by simp) q0 q1 qrest hgm
      have hn' : n ∈ rest := by
        rcases List.mem_cons.mp hn with rfl | h'
        · rw [hgm] at hg; cases hg
        · exact h'
      obtain ⟨n', hres⟩ := ih (fun u hu => hne u (by simp [hu]))
        (fun u hu => hpair u (by simp [hu])) ⟨n, hn', p0, hg, hk⟩
      exact ⟨n', by simp [mergeGroups, hgm, inputFieldStep, hmr, hres]⟩

/-- C4 (amended): if some input-field name occurs exactly once across the two
sides and that occurrence is NON_NULL, `mergeInputFields` fails — in
Intersection mode as well as Union mode (the check precedes the mode test).
Moreover, if every name occurring more than once has type-compatible
occurrences, the reported error has the form `new field … is non-null`
(otherwise the loop may abort first on an alphabetically earlier
incompatible name, see the counterexample). -/
theorem mergeInputFields_lone_nonNull_fails (a b : List IInputField)
    (mode : MergeMode) (x : IInputField)
    (hx : groupFor (fun f => f.name) a b x.name = [x])
    (hk : x.type.kind = "NON_NULL") :
    (∃ e, mergeInputFields a b mode = .error e) ∧
    ((∀ n p0 p1 rest, groupFor (fun f => f.name) a b n = p0 :: p1 :: rest →
        ∃ mr, mergeTypeRefs p0.type p1.type true = .ok mr) →
      ∃ n, mergeInputFields a b mode = .error (.newFieldNonNull n)) := by
  have hxmem : x ∈ groupFor (fun f => f.name) a b x.name := by
    rw [hx]; exact List.mem_singleton_self x
  have hmem := (mem_groupFor.mp hxmem).1
  have hname : x.name ∈ (a ++ b).map (fun f => f.name) :=
    List.mem_map.mpr ⟨x, List.mem_append.mpr hmem, rfl⟩
  have hns : x.name ∈ sortedNames ((a ++ b).map fun f => f.name) :=
    mem_sortedNames.mpr hname
  constructor
  · cases hres : mergeInputFields a b mode with
    | error e => exact ⟨e, rfl⟩
    | ok l => exact absurd hk (mergeInputFields_ok_no_lone_nonNull hres x hx)
  · intro hpair
    exact inputFields_go_fails _
      (fun n hn => groupFor_ne_nil_of_mem_names _ (mem_sortedNames.mp hn))
      (fun n _ => hpair n)
      ⟨x.name, hns, x, hx, hk⟩

/-- Witness for C4 at `a = [x: Int!]`, `b = []`, Union mode. -/
theorem mergeInputFields_lone_nonNull_fails_witness :
    (groupFor (fun f => f.name) [⟨"x", nnIntRef⟩] ([] : List IInputField) "x" =
      [⟨"x", nnIntRef⟩] ∧ nnIntRef.kind = "NON_NULL") ∧
    ((∃ e, mergeInputFields [⟨"x", nnIntRef⟩] [] .union = .error e) ∧
     ((∀ n p0 p1 rest,
         groupFor (fun f => f.name) [⟨"x", nnIntRef⟩] ([] : List IInputField) n =
           p0 :: p1 :: rest →
         ∃ mr, mergeTypeRefs p0.type p1.type true = .ok mr) →
       ∃ n, mergeInputFields [⟨"x", nnIntRef⟩] [] .union =
         .error (.newFieldNonNull n))) :=
  ⟨⟨by decide, by decide⟩,
   mergeInputFields_lone_nonNull_fails [⟨"x", nnIntRef⟩] [] .union
     ⟨"x", nnIntRef⟩ (by decide) (by decide)⟩

/-- Counterexample for C4 as frozen: the name `z` occurs exactly once, with a
NON_NULL type, yet `mergeInputFields` reports the incompatibility of the
alphabetically earlier name `a`, not an error of the form
`new field … is non-null`. -/
theorem mergeInputFields_error_form_counterexample :
    groupFor (fun f => f.name) ([⟨"z", nnIntRef⟩, ⟨"a", intRef⟩] : List IInputField)
        [⟨"a", strRef⟩] "z" = [⟨"z", nnIntRef⟩] ∧
    nnIntRef.kind = "NON_NULL" ∧
    mergeInputFields [⟨"z", nnIntRef⟩, ⟨"a", intRef⟩] [⟨"a", strRef⟩] .union =
      .error (.fieldIncompatibleTypes "a" .typesMustBeIdentical) ∧
    (∀ n : String,
      MergeErr.fieldIncompatibleTypes "a" .typesMustBeIdentical ≠
        .newFieldNonNull n) :=
  ⟨by decide, by decide, by decide, fun _ h => MergeErr.noConfusion h⟩

/-- C3 (amended): for well-formed schemas (no duplicate names at any level),
every top-level type name, field name, input-field name, enum value name and
union member name present in `mergeSchemas(a, b, Intersection)` is present by
name in both `a` and `b` (in the types of the same name).  Without the
well-formedness hypothesis the claim as frozen fails, see the
counterexample. -/
theorem mergeSchemas_inter_subset (a b : IQueryResult) (r : IQueryResult)
    (hwa : schemaWF a) (hwb : schemaWF b)
    (h : mergeSchemas a b .intersection = .ok r) :
    ∀ t ∈ r.types,
      (∃ ta ∈ a.types, ta.name = t.name) ∧
      (∃ tb ∈ b.types, tb.name = t.name) ∧
      (∀ f ∈ t.fields,
        (∃ ta ∈ a.types, ta.name = t.name ∧ ∃ fa ∈ ta.fields, fa.name = f.name) ∧
        (∃ tb ∈ b.types, tb.name = t.name ∧ ∃ fb ∈ tb.fields, fb.name = f.name)) ∧
      (∀ g ∈ t.inputFields,
        (∃ ta ∈ a.types, ta.name = t.name ∧
          ∃ ga ∈ ta.inputFields, ga.name = g.name) ∧
        (∃ tb ∈ b.types, tb.name = t.name ∧
          ∃ gb ∈ tb.inputFields, gb.name = g.name)) ∧
      (∀ v ∈ t.enumValues,
        (∃ ta ∈ a.types, ta.name = t.name ∧
          ∃ va ∈ ta.enumValues, va.name = v.name) ∧
        (∃ tb ∈ b.types, tb.name = t.name ∧
          ∃ vb ∈ tb.enumValues, vb.name = v.name)) ∧
      (∀ p ∈ t.possibleTypes,
        (∃ ta ∈ a.types, ta.name = t.name ∧
          ∃ pa ∈ ta.possibleTypes, pa.name = p.name) ∧
        (∃ tb ∈ b.types, tb.name = t.name ∧
          ∃ pb ∈ tb.possibleTypes, pb.name = p.name)) := by
  unfold mergeSchemas at h
  cases hg : mergeGroups (typeStep .intersection)
      (groupFor (fun t => t.name) a.types b.types)
      (sortedNames ((a.types ++ b.types).map fun t => t.name)) with
  | error e => rw [hg] at h; cases h
  | ok L =>
    rw [hg] at h
    cases h
    intro t ht
    obtain ⟨n, hn, l, hs, hl⟩ := mergeGroups_mem hg t ht
    match hgr : groupFor (fun t => t.name) a.types b.types n with
    | [] => rw [hgr] at hs; simp [typeStep] at hs
    | [p0] =>
      rw [hgr] at hs
      simp only [typeStep] at hs
      rw [if_neg (by decide)] at hs
      cases hs
      cases hl
    | p0 :: p1 :: ps =>
      rw [hgr] at hs
      simp only [typeStep] at hs
      cases hm : mergeTypes p0 p1 .intersection with
      | error e => rw [hm] at hs; cases hs
      | ok m =>
        rw [hm] at hs
        cases hs
        obtain rfl := List.mem_singleton.mp hl
        obtain ⟨hp0a, hp1b, hname0, hname1, rfl⟩ :=
          groupFor_pair_cases hwa.1 hwb.1 hgr
        obtain ⟨hmname, hmkind, hkinds, hcases⟩ := mergeTypes_cases hm
        have htn0 : p0.name = t.name := hmname.symm
        have htn1 : p1.name = t.name := hname1.trans (hmname.trans hname0).symm
        have hwp0 := hwa.2 p0 hp0a
        have hwp1 := hwb.2 p1 hp1b
        refine ⟨⟨p0, hp0a, htn0⟩, ⟨p1, hp1b, htn1⟩, ?_, ?_, ?_, ?_⟩
        · intro f hf
          rcases hcases with ⟨hk, l', hml, hteq⟩ | ⟨hk, l', hml, hteq⟩ |
            ⟨hk, l', hml, hteq⟩ | ⟨hk, l', hml, hteq⟩ | ⟨hk, hteq⟩ <;>
            rw [hteq] at hf <;>
            first
            | exact absurd hf (List.not_mem_nil f)
            | · obtain ⟨⟨fa, hfa, hfan⟩, ⟨fb, hfb, hfbn⟩⟩ :=
                  mergeFields_inter_origin hwp0.1.1 hwp1.1.1 hml f hf
                exact ⟨⟨p0, hp0a, htn0, fa, hfa, hfan⟩,
                  ⟨p1, hp1b, htn1, fb, hfb, hfbn⟩⟩
        · intro g hg2
          rcases hcases with ⟨hk, l', hml, hteq⟩ | ⟨hk, l', hml, hteq⟩ |
            ⟨hk, l', hml, hteq⟩ | ⟨hk, l', hml, hteq⟩ | ⟨hk, hteq⟩ <;>
            rw [hteq] at hg2 <;>
            first
            | exact absurd hg2 (List.not_mem_nil g)
            | · obtain ⟨⟨ga, hga, hgan⟩, ⟨gb, hgb, hgbn⟩⟩ :=
                  mergeInputFields_inter_origin hwp0.2.1 hwp1.2.1 hml g hg2
                exact ⟨⟨p0, hp0a, htn0, ga, hga, hgan⟩,
                  ⟨p1, hp1b, htn1, gb, hgb, hgbn⟩⟩
        · intro v hv
          rcases hcases with ⟨hk, l', hml, hteq⟩ | ⟨hk, l', hml, hteq⟩ |
            ⟨hk, l', hml, hteq⟩ | ⟨hk, l', hml, hteq⟩ | ⟨hk, hteq⟩ <;>
            rw [hteq] at hv <;>
            first
            | exact absurd hv (List.not_mem_nil v)
            | · obtain ⟨⟨va, hva, hvan⟩, ⟨vb, hvb, hvbn⟩⟩ :=
                  mergeEnumValues_inter_origin hwp0.2.2.2 hwp1.2.2.2 hml v hv
                exact ⟨⟨p0, hp0a, htn0, va, hva, hvan⟩,
                  ⟨p1, hp1b, htn1, vb, hvb, hvbn⟩⟩
        · intro p hp
          rcases hcases with ⟨hk, l', hml, hteq⟩ | ⟨hk, l', hml, hteq⟩ |
            ⟨hk, l', hml, hteq⟩ | ⟨hk, l', hml, hteq⟩ | ⟨hk, hteq⟩ <;>
            rw [hteq] at hp <;>
            first
            | exact absurd hp (List.not_mem_nil p)
            | · obtain ⟨⟨pa, hpa2, hpan⟩, ⟨pb, hpb2, hpbn⟩⟩ :=
                  mergePossibleTypes_inter_origin hwp0.2.2.1 hwp1.2.2.1 hml p hp
                exact ⟨⟨p0, hp0a, htn0, pa, hpa2, hpan⟩,
                  ⟨p1, hp1b, htn1, pb, hpb2, hpbn⟩⟩

/-- Witness for C3 at the schema `Query { x: Int }` merged with itself. -/
theorem mergeSchemas_inter_subset_witness :
    (schemaWF sampleObjSchema ∧
      mergeSchemas sampleObjSchema sampleObjSchema .intersection =
        .ok sampleObjSchema) ∧
    (∀ t ∈ sampleObjSchema.types,
      (∃ ta ∈ sampleObjSchema.types, ta.name = t.name) ∧
      (∃ tb ∈ sampleObjSchema.types, tb.name = t.name) ∧
      (∀ f ∈ t.fields,
        (∃ ta ∈ sampleObjSchema.types, ta.name = t.name ∧
          ∃ fa ∈ ta.fields, fa.name = f.name) ∧
        (∃ tb ∈ sampleObjSchema.types, tb.name = t.name ∧
          ∃ fb ∈ tb.fields, fb.name = f.name)) ∧
      (∀ g ∈ t.inputFields,
        (∃ ta ∈ sampleObjSchema.types, ta.name = t.name ∧
          ∃ ga ∈ ta.inputFields, ga.name = g.name) ∧
        (∃ tb ∈ sampleObjSchema.types, tb.name = t.name ∧
          ∃ gb ∈ tb.inputFields, gb.name = g.name)) ∧
      (∀ v ∈ t.enumValues,
        (∃ ta ∈ sampleObjSchema.types, ta.name = t.name ∧
          ∃ va ∈ ta.enumValues, va.name = v.name) ∧
        (∃ tb ∈ sampleObjSchema.types, tb.name = t.name ∧
          ∃ vb ∈ tb.enumValues, vb.name = v.name)) ∧
      (∀ p ∈ t.possibleTypes,
        (∃ ta ∈ sampleObjSchema.types, ta.name = t.name ∧
          ∃ pa ∈ ta.possibleTypes, pa.name = p.name) ∧
        (∃ tb ∈ sampleObjSchema.types, tb.name = t.name ∧
          ∃ pb ∈ tb.possibleTypes, pb.name = p.name))) :=
  ⟨⟨by decide, by decide⟩,
   mergeSchemas_inter_subset sampleObjSchema sampleObjSchema sampleObjSchema
     (by decide) (by decide) (by decide)⟩

/-- Counterexample for C3 as frozen: with a duplicate type name `X` on one
side, `mergeSchemas(a, b, Intersection)` succeeds and its result contains the
type name `X`, which is not present in `b` (whose type list is empty). -/
theorem mergeSchemas_inter_subset_counterexample :
    mergeSchemas dupXSchema emptySchema .intersection = .ok ⟨[xScalar]⟩ ∧
    xScalar.name = "X" ∧
    (∀ tb ∈ emptySchema.types, tb.name ≠ "X") := by
  refine ⟨by decide, by decide, ?_⟩
  intro tb htb
  cases htb

theorem mergeGroups_union_names {α β : Type} (getName : α → String)
    (nameB : β → String)
    {step : String → List α → Except MergeErr (List β)} {a b : List α} {L : List β}
    (hstep : ∀ n l, step n (groupFor getName a b n) = .ok l →
      groupFor getName a b n ≠ [] → ∃ x ∈ l, nameB x = n)
    (h : mergeGroups step (groupFor getName a b)
      (sortedNames ((a ++ b).map getName)) = .ok L) :
    ∀ y ∈ a ++ b, ∃ x ∈ L, nameB x = getName y := by
  intro y hy
  have hns : getName y ∈ sortedNames ((a ++ b).map getName) :=
    mem_sortedNames.mpr (List.mem_map.mpr ⟨y, hy, rfl⟩)
  obtain ⟨l, hs⟩ := mergeGroups_steps_ok h _ hns
  obtain ⟨x, hxl, hxn⟩ :=
    hstep _ l hs (groupFor_ne_nil getName (List.mem_append.mp hy))
  exact ⟨x, mergeGroups_mem_of h hns hs hxl, hxn⟩

theorem mergeFields_union_names {a b : List IField} {L : List IField}
    (h : mergeFields a b .union = .ok L) :
    ∀ y ∈ a ++ b, ∃ x ∈ L, x.name = y.name := by
  unfold mergeFields at h
  refine mergeGroups_union_names (fun f : IField => f.name)
    (fun f : IField => f.name) ?_ h
  intro n l hs hne
  match hg : groupFor (fun f : IField => f.name) a b n with
  | [] => exact absurd hg hne
  | [p0] =>
    rw [hg] at hs
    simp only [fieldStep] at hs
    rw [if_true] at hs
    cases hs
    refine ⟨p0, List.mem_singleton_self p0, ?_⟩
    have hp : p0 ∈ groupFor (fun f : IField => f.name) a b n := by rw [hg]; simp
    exact (mem_groupFor.mp hp).2
  | p0 :: p1 :: ps =>
    rw [hg] at hs
    simp only [fieldStep] at hs
    cases hm : mergeTypeRefs p0.type p1.type false with
    | error e => rw [hm] at hs; cases hs
    | ok typ =>
      rw [hm] at hs
      cases hargs : mergeInputFields p0.args p1.args .union with
      | error e => rw [hargs] at hs; cases hs
      | ok args =>
        rw [hargs] at hs
        cases hs
        exact ⟨⟨n, typ, args⟩, List.mem_singleton_self _, rfl⟩

theorem mergeEnumValues_union_names {a b : List IEnumValue} {L : List IEnumValue}
    (h : mergeEnumValues a b .union = .ok L) :
    ∀ y ∈ a ++ b, ∃ x ∈ L, x.name = y.name := by
  unfold mergeEnumValues at h
  refine mergeGroups_union_names (fun v : IEnumValue => v.name)
    (fun v : IEnumValue => v.name) ?_ h
  intro n l hs hne
  match hg : groupFor (fun v : IEnumValue => v.name) a b n with
  | [] => exact absurd hg hne
  | [p0] =>
    rw [hg] at hs
    simp only [enumValueStep] at hs
    rw [if_true] at hs
    cases hs
    refine ⟨p0, List.mem_singleton_self p0, ?_⟩
    have hp : p0 ∈ groupFor (fun v : IEnumValue => v.name) a b n := by rw [hg]; simp
    exact (mem_groupFor.mp hp).2
  | p0 :: p1 :: ps =>
    rw [hg] at hs
    simp only [enumValueStep] at hs
    cases hs
    refine ⟨p0, List.mem_singleton_self p0, ?_⟩
    have hp : p0 ∈ groupFor (fun v : IEnumValue => v.name) a b n := by rw [hg]; simp
    exact (mem_groupFor.mp hp).2

theorem mergePossibleTypes_union_names {a b : List ITypeRef} {L : List ITypeRef}
    (h : mergePossibleTypes a b .union = .ok L) :
    ∀ y ∈ a ++ b, ∃ x ∈ L, x.name = y.name := by
  unfold mergePossibleTypes at h
  refine mergeGroups_union_names (fun t : ITypeRef => t.name)
    (fun t : ITypeRef => t.name) ?_ h
  intro n l hs hne
  match hg : groupFor (fun t : ITypeRef => t.name) a b n with
  | [] => exact absurd hg hne
  | [p0] =>
    rw [hg] at hs
    simp only [possibleTypeStep] at hs
    rw [if_true] at hs
    cases hs
    refine ⟨p0, List.mem_singleton_self p0, ?_⟩
    have hp : p0 ∈ groupFor (fun t : ITypeRef => t.name) a b n := by rw [hg]; simp
    exact (mem_groupFor.mp hp).2
  | p0 :: p1 :: ps =>
    rw [hg] at hs
    simp only [possibleTypeStep] at hs
    cases hs
    refine ⟨p0, List.mem_singleton_self p0, ?_⟩
    have hp : p0 ∈ groupFor (fun t : ITypeRef => t.name) a b n := by rw [hg]; simp
    exact (mem_groupFor.mp hp).2

/-- C6 (amended): provided each schema's top-level type names are distinct,
every top-level type name present in `a` or `b` is present in
`mergeSchemas(a, b, Union)`, and for a type of kind OBJECT / ENUM / UNION every
field / enum value / union member name of a type present on either side is
present in the merged type of the same name.  Without the distinctness
hypothesis the claim as frozen fails, see the counterexample; the per-kind
qualification reflects that `mergeTypes` populates only the collection that
matches the type's kind. -/
theorem mergeSchemas_union_superset (a b : IQueryResult) (r : IQueryResult)
    (hna : (a.types.map fun t => t.name).Nodup)
    (hnb : (b.types.map fun t => t.name).Nodup)
    (h : mergeSchemas a b .union = .ok r) :
    ∀ t ∈ a.types ++ b.types, ∃ m ∈ r.types, m.name = t.name ∧
      (t.kind = "OBJECT" → ∀ f ∈ t.fields, ∃ g ∈ m.fields, g.name = f.name) ∧
      (t.kind = "ENUM" → ∀ v ∈ t.enumValues, ∃ w ∈ m.enumValues, w.name = v.name) ∧
      (t.kind = "UNION" → ∀ p ∈ t.possibleTypes,
        ∃ q ∈ m.possibleTypes, q.name = p.name) := by
  unfold mergeSchemas at h
  cases hg : mergeGroups (typeStep .union)
      (groupFor (fun t => t.name) a.types b.types)
      (sortedNames ((a.types ++ b.types).map fun t => t.name)) with
  | error e => rw [hg] at h; cases h
  | ok L =>
    rw [hg] at h
    cases h
    intro t ht
    have hns : t.name ∈ sortedNames ((a.types ++ b.types).map fun t => t.name) :=
      mem_sortedNames.mpr (List.mem_map.mpr ⟨t, ht, rfl⟩)
    obtain ⟨l, hs⟩ := mergeGroups_steps_ok hg _ hns
    have hs0 := hs
    have htg : t ∈ groupFor (fun t => t.name) a.types b.types t.name :=
      mem_groupFor.mpr ⟨List.mem_append.mp ht, rfl⟩
    match hgr : groupFor (fun t => t.name) a.types b.types t.name with
    | [] => rw [hgr] at htg; cases htg
    | [p0] =>
      rw [hgr] at htg hs
      obtain rfl := List.mem_singleton.mp htg
      simp only [typeStep] at hs
      rw [if_true] at hs
      cases hs
      exact ⟨t, mergeGroups_mem_of hg hns hs0 (List.mem_singleton_self t), rfl,
        fun _ f hf => ⟨f, hf, rfl⟩, fun _ v hv => ⟨v, hv, rfl⟩,
        fun _ p hp => ⟨p, hp, rfl⟩⟩
    | p0 :: p1 :: ps =>
      rw [hgr] at hs
      simp only [typeStep] at hs
      cases hm : mergeTypes p0 p1 .union with
      | error e => rw [hm] at hs; cases hs
      | ok m =>
        rw [hm] at hs
        cases hs
        have hmem : m ∈ L :=
          mergeGroups_mem_of hg hns hs0 (List.mem_singleton_self m)
        obtain ⟨hp0a, hp1b, hname0, hname1, rfl⟩ := groupFor_pair_cases hna hnb hgr
        rw [hgr] at htg
        have htg2 : t = p0 ∨ t = p1 := by simpa using htg
        obtain ⟨hmname, hmkind, hkinds, hcases⟩ := mergeTypes_cases hm
        have hmn : m.name = t.name := hmname.trans hname0
        refine ⟨m, hmem, hmn, ?_, ?_, ?_⟩
        · intro hko f hf
          have hpk : p0.kind = "OBJECT" := by
            rcases htg2 with h' | h'
            · rw [h'] at hko; exact hko
            · rw [h'] at hko; exact hkinds.trans hko
          have hfm : f ∈ p0.fields ++ p1.fields := by
            rcases htg2 with h' | h'
            · rw [h'] at hf; exact List.mem_append_left _ hf
            · rw [h'] at hf; exact List.mem_append_right _ hf
          rcases hcases with ⟨hk, l', hml, hteq⟩ | ⟨hk, l', hml, hteq⟩ |
            ⟨hk, l', hml, hteq⟩ | ⟨hk, l', hml, hteq⟩ | ⟨hk, hteq⟩ <;>
            first
            | exact absurd (hpk.symm.trans hk) (by decide)
            | · subst hteq
                obtain ⟨g2, hg2, hgn⟩ := mergeFields_union_names hml f hfm
                exact ⟨g2, hg2, hgn⟩
        · intro hko v hv
          have hpk : p0.kind = "ENUM" := by
            rcases htg2 with h' | h'
            · rw [h'] at hko; exact hko
            · rw [h'] at hko; exact hkinds.trans hko
          have hvm : v ∈ p0.enumValues ++ p1.enumValues := by
            rcases htg2 with h' | h'
            · rw [h'] at hv; exact List.mem_append_left _ hv
            · rw [h'] at hv; exact List.mem_append_right _ hv
          rcases hcases with ⟨hk, l', hml, hteq⟩ | ⟨hk, l', hml, hteq⟩ |
            ⟨hk, l', hml, hteq⟩ | ⟨hk, l', hml, hteq⟩ | ⟨hk, hteq⟩ <;>
            first
            | exact absurd (hpk.symm.trans hk) (by decide)
            | · subst hteq
                obtain ⟨w2, hw2, hwn⟩ := mergeEnumValues_union_names hml v hvm
                exact ⟨w2, hw2, hwn⟩
        · intro hko p hp
          have hpk : p0.kind = "UNION" := by
            rcases htg2 with h' | h'
            · rw [h'] at hko; exact hko
            · rw [h'] at hko; exact hkinds.trans hko
          have hpm : p ∈ p0.possibleTypes ++ p1.possibleTypes := by
            rcases htg2 with h' | h'
            · rw [h'] at hp; exact List.mem_append_left _ hp
            · rw [h'] at hp; exact List.mem_append_right _ hp
          rcases hcases with ⟨hk, l', hml, hteq⟩ | ⟨hk, l', hml, hteq⟩ |
            ⟨hk, l', hml, hteq⟩ | ⟨hk, l', hml, hteq⟩ | ⟨hk, hteq⟩ <;>
            first
            | exact absurd (hpk.symm.trans hk) (by decide)
            | · subst hteq
                obtain ⟨q2, hq2, hqn⟩ := mergePossibleTypes_union_names hml p hpm
                exact ⟨q2, hq2, hqn⟩

/-- Witness for C6 at `Query { x: Int }` union-merged with `Query { y: String }`. -/
theorem mergeSchemas_union_superset_witness :
    ((sampleObjSchema.types.map fun t => t.name).Nodup ∧
      (sampleObjSchemaB.types.map fun t => t.name).Nodup ∧
      mergeSchemas sampleObjSchema sampleObjSchemaB .union = .ok sampleUnionResult) ∧
    (∀ t ∈ sampleObjSchema.types ++ sampleObjSchemaB.types,
      ∃ m ∈ sampleUnionResult.types, m.name = t.name ∧
        (t.kind = "OBJECT" → ∀ f ∈ t.fields, ∃ g ∈ m.fields, g.name = f.name) ∧
        (t.kind = "ENUM" → ∀ v ∈ t.enumValues,
          ∃ w ∈ m.enumValues, w.name = v.name) ∧
        (t.kind = "UNION" → ∀ p ∈ t.possibleTypes,
          ∃ q ∈ m.possibleTypes, q.name = p.name)) :=
  ⟨⟨by decide, by decide, by decide⟩,
   mergeSchemas_union_superset sampleObjSchema sampleObjSchemaB sampleUnionResult
     (by decide) (by decide) (by decide)⟩

/-- Counterexample for C6 as frozen: with a duplicate type name `X` in `a`,
the union merge succeeds but drops field `h` of `b`'s type `X` (only the first
two occurrences of the group are merged), so a field name present on one side
is missing from the merged type of the same name. -/
theorem mergeSchemas_union_superset_counterexample :
    mergeSchemas dupFieldSchemaA oneFieldSchemaB .union = .ok unionDupResult ∧
    (∃ tb ∈ oneFieldSchemaB.types, tb.name = "X" ∧ tb.kind = "OBJECT" ∧
      ∃ f ∈ tb.fields, f.name = "h") ∧
    (∀ m ∈ unionDupResult.types, ∀ g ∈ m.fields, g.name ≠ "h") := by
  decide

theorem typeSimilar_refl (t : IType) : typeSimilar t t :=
  ⟨rfl, rfl, rfl, rfl, rfl, rfl⟩

theorem forall2_name_eq {l1 l2 : List ITypeRef}
    (h : List.Forall₂ (fun p q : ITypeRef => p.name = q.name) l1 l2) :
    l1.map (fun t => t.name) = l2.map (fun t => t.name) := by
  induction h with
  | nil => rfl
  | cons h1 _ ih => simp [h1, ih]

theorem forall2_typeSimilar_map_name {l1 l2 : List IType}
    (h : List.Forall₂ typeSimilar l1 l2) :
    l1.map (fun t => t.name) = l2.map (fun t => t.name) := by
  induction h with
  | nil => rfl
  | cons h1 _ ih => simp [h1.1, ih]

theorem mergeInputFields_comm {a b : List IInputField} {mode : MergeMode}
    {l : List IInputField} (ha : inputFieldsWF a) (hb : inputFieldsWF b)
    (h : mergeInputFields a b mode = .ok l) :
    mergeInputFields b a mode = .ok l := by
  unfold mergeInputFields at h ⊢
  unfold inputFieldsWF at ha hb
  rw [List.map_append, sortedNames_append_comm, ← List.map_append]
  have H : ∀ n ∈ sortedNames ((a ++ b).map fun f => f.name), ∀ l₀,
      inputFieldStep mode n (groupFor (fun f => f.name) a b n) = .ok l₀ →
      ∃ l', inputFieldStep mode n (groupFor (fun f => f.name) b a n) = .ok l' ∧
        List.Forall₂ (· = ·) l₀ l' := by
    intro n _ l₀ hs
    rcases filter_name_cases ha n with hfa | ⟨ya, hya, hgya, hfa⟩ <;>
      rcases filter_name_cases hb n with hfb | ⟨yb, hyb, hgyb, hfb⟩
    · rw [groupFor_eq_append, hfa, hfb] at hs
      simp [inputFieldStep] at hs
    · rw [groupFor_eq_append, hfa, hfb, List.nil_append] at hs
      rw [groupFor_eq_append, hfb, hfa, List.append_nil]
      exact ⟨l₀, hs, List.forall₂_same.mpr fun x _ => rfl⟩
    · rw [groupFor_eq_append, hfa, hfb, List.append_nil] at hs
      rw [groupFor_eq_append, hfb, hfa, List.nil_append]
      exact ⟨l₀, hs, List.forall₂_same.mpr fun x _ => rfl⟩
    · rw [groupFor_eq_append, hfa, hfb, List.singleton_append] at hs
      rw [groupFor_eq_append, hfb, hfa, List.singleton_append]
      simp only [inputFieldStep] at hs ⊢
      cases hm : mergeTypeRefs ya.type yb.type true with
      | error e => rw [hm] at hs; cases hs
      | ok mr =>
        rw [hm] at hs
        cases hs
        rw [mergeTypeRefs_comm hm]
        exact ⟨[⟨n, mr⟩], rfl, List.forall₂_same.mpr fun x _ => rfl⟩
  obtain ⟨L', hok, hrel⟩ := mergeGroups_rel (· = ·) H h
  rw [List.forall₂_eq_eq_eq] at hrel
  rw [← hrel] at hok
  exact hok

theorem mergeFields_comm {a b : List IField} {mode : MergeMode}
    {l : List IField} (ha : fieldsWF a) (hb : fieldsWF b)
    (h : mergeFields a b mode = .ok l) :
    mergeFields b a mode = .ok l := by
  unfold mergeFields at h ⊢
  rw [List.map_append, sortedNames_append_comm, ← List.map_append]
  have H : ∀ n ∈ sortedNames ((a ++ b).map fun f => f.name), ∀ l₀,
      fieldStep mode n (groupFor (fun f => f.name) a b n) = .ok l₀ →
      ∃ l', fieldStep mode n (groupFor (fun f => f.name) b a n) = .ok l' ∧
        List.Forall₂ (· = ·) l₀ l' := by
    intro n _ l₀ hs
    rcases filter_name_cases ha.1 n with hfa | ⟨ya, hya, hgya, hfa⟩ <;>
      rcases filter_name_cases hb.1 n with hfb | ⟨yb, hyb, hgyb, hfb⟩
    · rw [groupFor_eq_append, hfa, hfb] at hs
      simp [fieldStep] at hs
    · rw [groupFor_eq_append, hfa, hfb, List.nil_append] at hs
      rw [groupFor_eq_append, hfb, hfa, List.append_nil]
      exact ⟨l₀, hs, List.forall₂_same.mpr fun x _ => rfl⟩
    · rw [groupFor_eq_append, hfa, hfb, List.append_nil] at hs
      rw [groupFor_eq_append, hfb, hfa, List.nil_append]
      exact ⟨l₀, hs, List.forall₂_same.mpr fun x _ => rfl⟩
    · rw [groupFor_eq_append, hfa, hfb, List.singleton_append] at hs
      rw [groupFor_eq_append, hfb, hfa, List.singleton_append]
      simp only [fieldStep] at hs ⊢
      cases hm : mergeTypeRefs ya.type yb.type false with
      | error e => rw [hm] at hs; cases hs
      | ok typ =>
        rw [hm] at hs
        cases hargs : mergeInputFields ya.args yb.args mode with
        | error e => rw [hargs] at hs; cases hs
        | ok args =>
          rw [hargs] at hs
          cases hs
          rw [mergeTypeRefs_comm hm,
            mergeInputFields_comm (ha.2 ya hya) (hb.2 yb hyb) hargs]
          exact ⟨[⟨n, typ, args⟩], rfl, List.forall₂_same.mpr fun x _ => rfl⟩
  obtain ⟨L', hok, hrel⟩ := mergeGroups_rel (· = ·) H h
  rw [List.forall₂_eq_eq_eq] at hrel
  rw [← hrel] at hok
  exact hok

theorem mergeEnumValues_comm {a b : List IEnumValue} {mode : MergeMode}
    {l : List IEnumValue}
    (ha : (a.map fun v => v.name).Nodup) (hb : (b.map fun v => v.name).Nodup)
    (h : mergeEnumValues a b mode = .ok l) :
    mergeEnumValues b a mode = .ok l := by
  unfold mergeEnumValues at h ⊢
  rw [List.map_append, sortedNames_append_comm, ← List.map_append]
  have H : ∀ n ∈ sortedNames ((a ++ b).map fun v => v.name), ∀ l₀,
      enumValueStep mode n (groupFor (fun v => v.name) a b n) = .ok l₀ →
      ∃ l', enumValueStep mode n (groupFor (fun v => v.name) b a n) = .ok l' ∧
        List.Forall₂ (· = ·) l₀ l' := by
    intro n _ l₀ hs
    rcases filter_name_cases ha n with hfa | ⟨ya, hya, hgya, hfa⟩ <;>
      rcases filter_name_cases hb n with hfb | ⟨yb, hyb, hgyb, hfb⟩
    · rw [groupFor_eq_append, hfa, hfb] at hs
      simp [enumValueStep] at hs
    · rw [groupFor_eq_append, hfa, hfb, List.nil_append] at hs
      rw [groupFor_eq_append, hfb, hfa, List.append_nil]
      exact ⟨l₀, hs, List.forall₂_same.mpr fun x _ => rfl⟩
    · rw [groupFor_eq_append, hfa, hfb, List.append_nil] at hs
      rw [groupFor_eq_append, hfb, hfa, List.nil_append]
      exact ⟨l₀, hs, List.forall₂_same.mpr fun x _ => rfl⟩
    · rw [groupFor_eq_append, hfa, hfb, List.singleton_append] at hs
      rw [groupFor_eq_append, hfb, hfa, List.singleton_append]
      simp only [enumValueStep] at hs ⊢
      cases hs
      have hy : ya = yb := by
        cases ya
        cases yb
        simp only [IEnumValue.mk.injEq]
        simp only at hgya hgyb
        rw [hgya, hgyb]
      rw [hy]
      exact ⟨[yb], rfl, List.forall₂_same.mpr fun x _ => rfl⟩
  obtain ⟨L', hok, hrel⟩ := mergeGroups_rel (· = ·) H h
  rw [List.forall₂_eq_eq_eq] at hrel
  rw [← hrel] at hok
  exact hok

theorem mergePossibleTypes_comm {a b : List ITypeRef} {mode : MergeMode}
    {l : List ITypeRef}
    (ha : (a.map fun t => t.name).Nodup) (hb : (b.map fun t => t.name).Nodup)
    (h : mergePossibleTypes a b mode = .ok l) :
    ∃ l', mergePossibleTypes b a mode = .ok l' ∧
      l.map (fun t => t.name) = l'.map (fun t => t.name) := by
  unfold mergePossibleTypes at h ⊢
  rw [List.map_append, sortedNames_append_comm, ← List.map_append]
  have H : ∀ n ∈ sortedNames ((a ++ b).map fun t => t.name), ∀ l₀,
      possibleTypeStep mode n (groupFor (fun t => t.name) a b n) = .ok l₀ →
      ∃ l', possibleTypeStep mode n (groupFor (fun t => t.name) b a n) = .ok l' ∧
        List.Forall₂ (fun p q : ITypeRef => p.name = q.name) l₀ l' := by
    intro n _ l₀ hs
    rcases filter_name_cases ha n with hfa | ⟨ya, hya, hgya, hfa⟩ <;>
      rcases filter_name_cases hb n with hfb | ⟨yb, hyb, hgyb, hfb⟩
    · rw [groupFor_eq_append, hfa, hfb] at hs
      simp [possibleTypeStep] at hs
    · rw [groupFor_eq_append, hfa, hfb, List.nil_append] at hs
      rw [groupFor_eq_append, hfb, hfa, List.append_nil]
      exact ⟨l₀, hs, List.forall₂_same.mpr fun x _ => rfl⟩
    · rw [groupFor_eq_append, hfa, hfb, List.append_nil] at hs
      rw [groupFor_eq_append, hfb, hfa, List.nil_append]
      exact ⟨l₀, hs, List.forall₂_same.mpr fun x _ => rfl⟩
    · rw [groupFor_eq_append, hfa, hfb, List.singleton_append] at hs
      rw [groupFor_eq_append, hfb, hfa, List.singleton_append]
      simp only [possibleTypeStep] at hs ⊢
      cases hs
      exact ⟨[yb], rfl, List.Forall₂.cons (hgya.trans hgyb.symm) List.Forall₂.nil⟩
  obtain ⟨L', hok, hrel⟩ := mergeGroups_rel
    (fun p q : ITypeRef => p.name = q.name) H h
  exact ⟨L', hok, forall2_name_eq hrel⟩

theorem mergeTypes_comm {ta tb : IType} {mode : MergeMode} {m : IType}
    (hn : ta.name = tb.name) (hwa : typeWF ta) (hwb : typeWF tb)
    (h : mergeTypes ta tb mode = .ok m) :
    ∃ m', mergeTypes tb ta mode = .ok m' ∧ typeSimilar m m' := by
  obtain ⟨hmname, hmkind, hkinds, hcases⟩ := mergeTypes_cases h
  unfold mergeTypes
  rw [if_neg (not_ne_iff.mpr hkinds.symm)]
  rcases hcases with ⟨hk, l', hml, rfl⟩ | ⟨hk, l', hml, rfl⟩ | ⟨hk, l', hml, rfl⟩ |
    ⟨hk, l', hml, rfl⟩ | ⟨hk, rfl⟩
  · have htbk : tb.kind = "INPUT_OBJECT" := hkinds.symm.trans hk
    rw [if_pos htbk]
    rw [mergeInputFields_comm hwa.2.1 hwb.2.1 hml]
    exact ⟨⟨tb.name, tb.kind, [], l', [], []⟩, rfl,
      ⟨hn, hkinds, rfl, rfl, rfl, rfl⟩⟩
  · have htbk : tb.kind = "OBJECT" := hkinds.symm.trans hk
    rw [if_neg (by rw [htbk]; decide), if_pos htbk]
    rw [mergeFields_comm hwa.1 hwb.1 hml]
    exact ⟨⟨tb.name, tb.kind, l', [], [], []⟩, rfl,
      ⟨hn, hkinds, rfl, rfl, rfl, rfl⟩⟩
  · have htbk : tb.kind = "UNION" := hkinds.symm.trans hk
    rw [if_neg (by rw [htbk]; decide), if_neg (by rw [htbk]; decide),
      if_pos htbk]
    obtain ⟨l'', hok2, hmap⟩ := mergePossibleTypes_comm hwa.2.2.1 hwb.2.2.1 hml
    rw [hok2]
    exact ⟨⟨tb.name, tb.kind, [], [], l'', []⟩, rfl,
      ⟨hn, hkinds, rfl, rfl, rfl, hmap⟩⟩
  · have htbk : tb.kind = "ENUM" := hkinds.symm.trans hk
    rw [if_neg (by rw [htbk]; decide), if_neg (by rw [htbk]; decide),
      if_neg (by rw [htbk]; decide), if_pos htbk]
    rw [mergeEnumValues_comm hwa.2.2.2 hwb.2.2.2 hml]
    exact ⟨⟨tb.name, tb.kind, [], [], [], l'⟩, rfl,
      ⟨hn, hkinds, rfl, rfl, rfl, rfl⟩⟩
  · have htbk : tb.kind = "SCALAR" := hkinds.symm.trans hk
    rw [if_neg (by rw [htbk]; decide), if_neg (by rw [htbk]; decide),
      if_neg (by rw [htbk]; decide), if_neg (by rw [htbk]; decide),
      if_pos htbk]
    exact ⟨⟨tb.name, tb.kind, [], [], [], []⟩, rfl,
      ⟨hn, hkinds, rfl, rfl, rfl, rfl⟩⟩

/-- C8 (amended): for well-formed schemas (no duplicate names at any level),
if both merge directions succeed, the two results have identical type name
lists, and for each position the two merged types have the same kind, the same
fields (hence equal merged type references and arguments), the same input
fields, the same enum values, and the same possible-type names.  Possible-type
references themselves are picked first-occurrence without compatibility
checks, so only their names are guaranteed to agree; without well-formedness
the claim as frozen fails, see the counterexample. -/
theorem mergeSchemas_comm_of_wellFormed (a b : IQueryResult) (mode : MergeMode)
    (r1 r2 : IQueryResult) (hwa : schemaWF a) (hwb : schemaWF b)
    (h1 : mergeSchemas a b mode = .ok r1) (h2 : mergeSchemas b a mode = .ok r2) :
    r1.types.map (fun t => t.name) = r2.types.map (fun t => t.name) ∧
    List.Forall₂ typeSimilar r1.types r2.types := by
  unfold mergeSchemas at h1 h2
  cases hg1 : mergeGroups (typeStep mode)
      (groupFor (fun t => t.name) a.types b.types)
      (sortedNames ((a.types ++ b.types).map fun t => t.name)) with
  | error e => rw [hg1] at h1; cases h1
  | ok L1 =>
  rw [hg1] at h1
  cases h1
  rw [List.map_append, sortedNames_append_comm, ← List.map_append] at h2
  cases hg2 : mergeGroups (typeStep mode)
      (groupFor (fun t => t.name) b.types a.types)
      (sortedNames ((a.types ++ b.types).map fun t => t.name)) with
  | error e => rw [hg2] at h2; cases h2
  | ok L2 =>
  rw [hg2] at h2
  cases h2
  have H : ∀ n ∈ sortedNames ((a.types ++ b.types).map fun t => t.name), ∀ l₀,
      typeStep mode n (groupFor (fun t => t.name) a.types b.types n) = .ok l₀ →
      ∃ l', typeStep mode n (groupFor (fun t => t.name) b.types a.types n) = .ok l' ∧
        List.Forall₂ typeSimilar l₀ l' := by
    intro n _ l₀ hs
    rcases filter_name_cases hwa.1 n with hfa | ⟨ya, hya, hgya, hfa⟩ <;>
      rcases filter_name_cases hwb.1 n with hfb | ⟨yb, hyb, hgyb, hfb⟩
    · rw [groupFor_eq_append, hfa, hfb] at hs
      simp [typeStep] at hs
    · rw [groupFor_eq_append, hfa, hfb, List.nil_append] at hs
      rw [groupFor_eq_append, hfb, hfa, List.append_nil]
      exact ⟨l₀, hs, List.forall₂_same.mpr fun x _ => typeSimilar_refl x⟩
    · rw [groupFor_eq_append, hfa, hfb, List.append_nil] at hs
      rw [groupFor_eq_append, hfb, hfa, List.nil_append]
      exact ⟨l₀, hs, List.forall₂_same.mpr fun x _ => typeSimilar_refl x⟩
    · rw [groupFor_eq_append, hfa, hfb, List.singleton_append] at hs
      rw [groupFor_eq_append, hfb, hfa, List.singleton_append]
      simp only [typeStep] at hs ⊢
      cases hm : mergeTypes ya yb mode with
      | error e => rw [hm] at hs; cases hs
      | ok m =>
        rw [hm] at hs
        cases hs
        obtain ⟨m', hok', hsim⟩ := mergeTypes_comm (hgya.trans hgyb.symm)
          (hwa.2 ya hya) (hwb.2 yb hyb) hm
        rw [hok']
        exact ⟨[m'], rfl, List.Forall₂.cons hsim List.Forall₂.nil⟩
  obtain ⟨L2', hok, hrel⟩ := mergeGroups_rel typeSimilar H hg1
  rw [hok] at hg2
  cases hg2
  exact ⟨forall2_typeSimilar_map_name hrel, hrel⟩

/-- Witness for C8 at `Query { x: Int }` and `Query { y: String }` in Union
mode. -/
theorem mergeSchemas_comm_of_wellFormed_witness :
    (schemaWF sampleObjSchema ∧ schemaWF sampleObjSchemaB ∧
      mergeSchemas sampleObjSchema sampleObjSchemaB .union = .ok sampleUnionResult ∧
      mergeSchemas sampleObjSchemaB sampleObjSchema .union = .ok sampleUnionResult) ∧
    (sampleUnionResult.types.map (fun t => t.name) =
        sampleUnionResult.types.map (fun t => t.name) ∧
      List.Forall₂ typeSimilar sampleUnionResult.types sampleUnionResult.types) :=
  ⟨⟨by decide, by decide, by decide, by decide⟩,
   mergeSchemas_comm_of_wellFormed sampleObjSchema sampleObjSchemaB .union
     sampleUnionResult sampleUnionResult (by decide) (by decide)
     (by decide) (by decide)⟩

/-- Counterexample for C8 as frozen: with a duplicated field name in `a`, both
merge directions succeed but produce different merged type references for the
field `f` (`Int` one way, `Int!` the other), because a different pair of
occurrences is merged in each direction. -/
theorem mergeSchemas_comm_counterexample :
    mergeSchemas dupNNFieldSchema nnFieldSchema .union =
      .ok ⟨[⟨"X", "OBJECT", [⟨"f", intRef, []⟩], [], [], []⟩]⟩ ∧
    mergeSchemas nnFieldSchema dupNNFieldSchema .union =
      .ok ⟨[⟨"X", "OBJECT", [⟨"f", nnIntRef, []⟩], [], [], []⟩]⟩ ∧
    (⟨"f", intRef, []⟩ : IField) ≠ ⟨"f", nnIntRef, []⟩ := by
  decide

end Federation

namespace Reactive

theorem RInv_init (m : Int) : RInv (RInit m) := by
  unfold RInv RInit
  refine ⟨by simp, by simp, by simp, by simp⟩

theorem RInv_step {s s' : RState} (h : RStep s s') (hinv : RInv s) : RInv s' := by
  obtain ⟨hbudget, hfatal, hrel, hcur⟩ := hinv
  cases h with
  | run o hp =>
    unfold runBody
    dsimp only
    by_cases hst : s.stopped = true
    · rw [if_pos hst]
      refine ⟨by dsimp only; omega, ?_, fun c hc => by exact hrel c hc, ?_⟩
      · intro hf
        exact absurd (hfatal hf).1 (by omega)
      · intro c hc
        exact hcur c hc
    · rw [if_neg hst]
      cases o with
      | retry =>
        refine ⟨by dsimp only; omega, ?_, ?_, ?_⟩
        · intro hf
          exact absurd (hfatal hf).1 (by omega)
        · intro c hc
          dsimp only at hc
          rcases List.mem_cons.mp hc with rfl | hc
          · dsimp only; omega
          · have := hrel c hc; dsimp only; omega
        · intro c hc
          dsimp only at hc
          obtain ⟨h1, h2⟩ := hcur c hc
          refine ⟨by dsimp only; omega, ?_⟩
          dsimp only
          simp only [List.mem_cons, not_or]
          exact ⟨by omega, h2⟩
      | fatal =>
        have harm : s.handlerArmed = false := by
          cases hb : s.handlerArmed
          · rfl
          · rw [hb] at hbudget; simp at hbudget; omega
        have hp1 : s.pending = 1 := by
          rw [harm] at hbudget; simp at hbudget; omega
        refine ⟨by dsimp only; rw [harm]; simp; omega, ?_, ?_, ?_⟩
        · intro _
          dsimp only
          rw [harm]
          exact ⟨by omega, rfl⟩
        · intro c hc
          dsimp only at hc
          rcases List.mem_cons.mp hc with rfl | hc
          · dsimp only; omega
          · have := hrel c hc; dsimp only; omega
        · intro c hc
          dsimp only at hc
          obtain ⟨h1, h2⟩ := hcur c hc
          refine ⟨by dsimp only; omega, ?_⟩
          dsimp only
          simp only [List.mem_cons, not_or]
          exact ⟨by omega, h2⟩
      | success inv =>
        have harm : s.handlerArmed = false := by
          cases hb : s.handlerArmed
          · rfl
          · rw [hb] at hbudget; simp at hbudget; omega
        have hp1 : s.pending = 1 := by
          rw [harm] at hbudget; simp at hbudget; omega
        have hrel2 : ∀ c ∈ (match s.current with
            | some c => c :: s.released
            | none => s.released), c < s.nextId := by
          cases hco : s.current with
          | none => exact fun c hc => hrel c hc
          | some c0 =>
            intro c hc
            rcases List.mem_cons.mp hc with rfl | hc
            · exact (hcur c hco).1
            · exact hrel c hc
        refine ⟨?_, ?_, ?_, ?_⟩
        · dsimp only
          cases inv <;> simp <;> omega
        · intro hf
          exact absurd (hfatal hf).1 (by omega)
        · intro c hc
          dsimp only at hc
          have := hrel2 c hc
          dsimp only
          omega
        · intro c hc
          dsimp only at hc
          cases hc
          refine ⟨by dsimp only; omega, ?_⟩
          dsimp only
          intro hmem
          exact absurd (hrel2 s.nextId hmem) (lt_irrefl _)
  | invalidate =>
    unfold invalidateCurrentOp
    by_cases ha : s.handlerArmed = true
    · rw [if_pos ha]
      refine ⟨by dsimp only; rw [ha] at hbudget; simp at hbudget; simp; omega, ?_, ?_, ?_⟩
      · intro hf
        exact absurd (hfatal hf).2 (by rw [ha]; simp)
      · intro c hc
        exact hrel c hc
      · intro c hc
        exact hcur c hc
    · rw [if_neg ha]
      exact ⟨hbudget, hfatal, hrel, hcur⟩
  | stop =>
    unfold stopOp
    refine ⟨by dsimp only; exact hbudget, ?_, ?_, ?_⟩
    · intro hf
      exact hfatal hf
    · intro c hc
      dsimp only at hc
      cases hco : s.current with
      | none => rw [hco] at hc; exact hrel c hc
      | some c0 =>
        rw [hco] at hc
        rcases List.mem_cons.mp hc with rfl | hc
        · exact (hcur c hco).1
        · exact hrel c hc
    · intro c hc
      dsimp only at hc
      cases hc

theorem RInv_reachable {m : Int} {s : RState} (h : Reachable m s) : RInv s := by
  induction h with
  | refl => exact RInv_init m
  | tail _ hstep ih => exact RInv_step hstep ih

theorem RStep_fatal_dead {t t' : RState} (h : RStep t t')
    (hf : t.fatalStopped = true) (hp : t.pending = 0)
    (ha : t.handlerArmed = false) :
    t'.fatalStopped = true ∧ t'.pending = 0 ∧ t'.handlerArmed = false := by
  cases h with
  | run o hpend => exact absurd hpend (by omega)
  | invalidate =>
    unfold invalidateCurrentOp
    rw [ha]
    simp [hf, hp, ha]
  | stop =>
    unfold stopOp
    exact ⟨hf, hp, ha⟩

theorem fatal_dead_reachable {s' : RState}
    (h3 : s'.fatalStopped = true ∧ s'.pending = 0 ∧ s'.handlerArmed = false) :
    ∀ t, Relation.ReflTransGen RStep s' t →
      t.fatalStopped = true ∧ t.pending = 0 ∧ t.handlerArmed = false := by
  intro t ht
  induction ht with
  | refl => exact h3
  | tail _ hstep ih => exact RStep_fatal_dead hstep ih.1 ih.2.1 ih.2.2

theorem doubledRetryDelay_eq_min {d : Int} (hlo : -(2 ^ 62) ≤ d)
    (hhi : d ≤ 2 ^ 62 - 1) :
    doubledRetryDelay d = min (2 * d) timeMinute := by
  have h1 : ((2 : Int) ^ 62) = 4611686018427387904 := by norm_num
  rw [h1] at hlo hhi
  have h2 : ((2 : Int) ^ 63) = 9223372036854775808 := by norm_num
  have h3 : ((2 : Int) ^ 64) = 18446744073709551616 := by norm_num
  simp only [doubledRetryDelay, wrap64, timeMinute, h2, h3]
  have hmod : (d * 2 + 9223372036854775808) % 18446744073709551616 =
      d * 2 + 9223372036854775808 := by
    apply Int.emod_eq_of_lt <;> omega
  rw [hmod, min_def]
  split_ifs <;> omega

theorem doubledRetryDelay_le_minute (d : Int) :
    doubledRetryDelay d ≤ timeMinute := by
  simp only [doubledRetryDelay]
  split_ifs with h
  · exact le_rfl
  · exact not_lt.mp h

/-- C5 (amended): a re-run that ends with the retry sentinel sets `retryDelay`
to the int64-wrapped double capped at one minute, which equals
`min(2·retryDelay, 60s)` whenever the doubling does not overflow int64
(`-2^62 ≤ retryDelay ≤ 2^62 - 1`); the new delay never exceeds 60s; and a
successful re-run resets `retryDelay` to `minRerunInterval`.  At
`retryDelay = 2^62` the doubling wraps and the frozen claim's `min` formula
fails, see the counterexample. -/
theorem rerun_retryDelay_spec (s : RState) (hns : s.stopped = false)
    (hlo : -(2 ^ 62) ≤ s.retryDelay) (hhi : s.retryDelay ≤ 2 ^ 62 - 1) :
    (runBody s .retry).retryDelay = min (2 * s.retryDelay) timeMinute ∧
    (runBody s .retry).retryDelay ≤ timeMinute ∧
    (∀ inv, (runBody s (.success inv)).retryDelay = s.minRerunInterval) := by
  have hrun : (runBody s .retry).retryDelay = doubledRetryDelay s.retryDelay := by
    simp [runBody, hns]
  refine ⟨?_, ?_, ?_⟩
  · rw [hrun]
    exact doubledRetryDelay_eq_min hlo hhi
  · rw [hrun]
    exact doubledRetryDelay_le_minute _
  · intro inv
    simp [runBody, hns]

/-- Witness for C5 at the freshly initialized executor (`retryDelay = 0`). -/
theorem rerun_retryDelay_spec_witness :
    ((RInit 0).stopped = false ∧ -(2 ^ 62) ≤ (RInit 0).retryDelay ∧
      (RInit 0).retryDelay ≤ 2 ^ 62 - 1) ∧
    ((runBody (RInit 0) .retry).retryDelay =
        min (2 * (RInit 0).retryDelay) timeMinute ∧
      (runBody (RInit 0) .retry).retryDelay ≤ timeMinute ∧
      (∀ inv, (runBody (RInit 0) (.success inv)).retryDelay =
        (RInit 0).minRerunInterval)) :=
  ⟨⟨by decide, by decide, by decide⟩,
   rerun_retryDelay_spec (RInit 0) (by decide) (by decide) (by decide)⟩

/-- Counterexample for C5 as frozen: at `retryDelay = 2^62` ns the doubling
overflows int64 and wraps to `-2^63`, so the stored delay is not
`min(2·2^62, 60s)`. -/
theorem rerun_retryDelay_counterexample :
    (runBody ⟨false, false, 2 ^ 62, 0, none, false, 0, [], 0⟩ .retry).retryDelay =
      -(2 ^ 63) ∧
    min (2 * ((2 : Int) ^ 62)) timeMinute = timeMinute ∧
    ((-((2 : Int) ^ 63)) ≠ timeMinute) := by
  decide

/-- C1 (amended): if a scheduled run executes `f` while the executor is not
stopped and `f` returns a non-sentinel (fatal) error, the executor stops: the
run's freshly created computation is released, the previously stored current
computation is kept and is not released by this path, and no further runs can
ever occur — every subsequently reachable state has no scheduled run and no
armed invalidation handler, so in particular a later invalidation of the
stored computation's node leaves the state unchanged (its one-shot handler
has already fired). -/
theorem fatal_error_stops_rerunner (m : Int) (s : RState)
    (hreach : Reachable m s) (hp : 0 < s.pending) (hns : s.stopped = false) :
    (runBody { s with pending := s.pending - 1 } .fatal).fatalStopped = true ∧
    (runBody { s with pending := s.pending - 1 } .fatal).released =
      s.nextId :: s.released ∧
    (runBody { s with pending := s.pending - 1 } .fatal).current = s.current ∧
    (∀ c, s.current = some c →
      c ∉ (runBody { s with pending := s.pending - 1 } .fatal).released) ∧
    RStep s (runBody { s with pending := s.pending - 1 } .fatal) ∧
    (∀ t, Relation.ReflTransGen RStep
        (runBody { s with pending := s.pending - 1 } .fatal) t →
      t.pending = 0 ∧ t.handlerArmed = false ∧ invalidateCurrentOp t = t) := by
  obtain ⟨hbudget, hfatal, hrel, hcur⟩ := RInv_reachable hreach
  have harm : s.handlerArmed = false := by
    cases hb : s.handlerArmed
    · rfl
    · rw [hb] at hbudget; simp at hbudget; omega
  have hp1 : s.pending = 1 := by
    rw [harm] at hbudget; simp at hbudget; omega
  have hbody : runBody { s with pending := s.pending - 1 } .fatal =
      { s with
          pending := s.pending - 1
          released := s.nextId :: s.released
          nextId := s.nextId + 1
          fatalStopped := true } := by
    unfold runBody
    rw [if_neg (by dsimp only; rw [hns]; simp)]
  rw [hbody]
  refine ⟨rfl, rfl, rfl, ?_, ?_, ?_⟩
  · intro c hc
    obtain ⟨h1, h2⟩ := hcur c hc
    dsimp only
    intro hmem
    rcases List.mem_cons.mp hmem with rfl | hmem
    · exact absurd h1 (lt_irrefl _)
    · exact h2 hmem
  · exact hbody ▸ RStep.run s .fatal hp
  · intro t ht
    have hd := fatal_dead_reachable
      ⟨rfl, by dsimp only; omega, by dsimp only; exact harm⟩ t ht
    exact ⟨hd.2.1, hd.2.2, by simp [invalidateCurrentOp, hd.2.2]⟩

/-- Witness for C1 at the freshly initialized executor, whose first run fails
fatally. -/
theorem fatal_error_stops_rerunner_witness :
    (Reachable 0 (RInit 0) ∧ 0 < (RInit 0).pending ∧
      (RInit 0).stopped = false) ∧
    ((runBody { RInit 0 with pending := (RInit 0).pending - 1 } .fatal).fatalStopped = true ∧
     (runBody { RInit 0 with pending := (RInit 0).pending - 1 } .fatal).released =
       (RInit 0).nextId :: (RInit 0).released ∧
     (runBody { RInit 0 with pending := (RInit 0).pending - 1 } .fatal).current =
       (RInit 0).current ∧
     (∀ c, (RInit 0).current = some c →
       c ∉ (runBody { RInit 0 with pending := (RInit 0).pending - 1 } .fatal).released) ∧
     RStep (RInit 0) (runBody { RInit 0 with pending := (RInit 0).pending - 1 } .fatal) ∧
     (∀ t, Relation.ReflTransGen RStep
         (runBody { RInit 0 with pending := (RInit 0).pending - 1 } .fatal) t →
       t.pending = 0 ∧ t.handlerArmed = false ∧ invalidateCurrentOp t = t)) :=
  ⟨⟨Relation.ReflTransGen.refl, by decide, by decide⟩,
   fatal_error_stops_rerunner 0 (RInit 0) Relation.ReflTransGen.refl
     (by decide) (by decide)⟩

/-- Counterexample for C1 as frozen: after a successful run installs
computation 0, its invalidation triggers a re-run that fails fatally; the
executor stops, but the stored current computation (id 0) is still the current
computation and its node has not been released — contradicting the claim that
the executor's current computation is released on a fatal error (only `Stop`
releases it). -/
theorem fatal_keeps_current_unreleased_counterexample :
    Reachable 0 c1TraceS3 ∧ c1TraceS3.fatalStopped = true ∧
    c1TraceS3.current = some 0 ∧ (0 : Nat) ∉ c1TraceS3.released :=
  ⟨Relation.ReflTransGen.tail
     (Relation.ReflTransGen.tail
       (Relation.ReflTransGen.tail Relation.ReflTransGen.refl
         (RStep.run (RInit 0) (.success false) (by decide)))
       (RStep.invalidate c1TraceS1))
     (RStep.run c1TraceS2 .fatal (by decide)),
   by decide, by decide, by decide⟩

/-- C10: inside a re-run context, if the sub-computation function passed to
`Cache(ctx, key, f)` returns an error (a cache miss, so `f` actually ran),
`Cache` returns that error and the cache is left unchanged: no entry is stored
under the key, no dependency edge is added to the current computation (the
failed child computation is released by `run`), and a subsequent `Cache` call
with the same key runs its function again — its fresh result is returned
rather than any cached value. -/
theorem cache_error_not_cached {K V : Type} [DecidableEq K]
    (s : CacheState K V) (key : K) (e : String)
    (habs : s.entries key = none) :
    (CacheOp true s key (.error e)).1 = .error e ∧
    (CacheOp true s key (.error e)).2.entries = s.entries ∧
    (CacheOp true s key (.error e)).2.edges = s.edges ∧
    (CacheOp true s key (.error e)).2.releasedChildren = s.releasedChildren + 1 ∧
    (∀ fres2, (CacheOp true ((CacheOp true s key (.error e)).2) key fres2).1 = fres2) := by
  have hstep : CacheOp true s key (.error e) =
      (.error e, { s with releasedChildren := s.releasedChildren + 1 }) := by
    unfold CacheOp
    rw [if_neg (by simp), habs]
  rw [hstep]
  refine ⟨rfl, rfl, rfl, rfl, ?_⟩
  intro fres2
  unfold CacheOp
  rw [if_neg (by simp)]
  rw [show ({ s with releasedChildren := s.releasedChildren + 1 } :
      CacheState K V).entries key = none from habs]
  cases fres2 <;> rfl

/-- Witness for C10 at the empty cache with key 0. -/
theorem cache_error_not_cached_witness :
    emptyCache.entries 0 = none ∧
    ((CacheOp true emptyCache 0 (.error "boom")).1 = .error "boom" ∧
     (CacheOp true emptyCache 0 (.error "boom")).2.entries = emptyCache.entries ∧
     (CacheOp true emptyCache 0 (.error "boom")).2.edges = emptyCache.edges ∧
     (CacheOp true emptyCache 0 (.error "boom")).2.releasedChildren =
       emptyCache.releasedChildren + 1 ∧
     (∀ fres2, (CacheOp true ((CacheOp true emptyCache 0 (.error "boom")).2)
       0 fres2).1 = fres2)) :=
  ⟨rfl, cache_error_not_cached emptyCache 0 "boom" rfl⟩

end Reactive

end Thunder
